import Mathlib

/-!
Icinga 2 `Dictionary` (lib/base/dictionary.cpp)

A shallow embedding of `icinga::Dictionary`, the key-ordered container of the
Icinga 2 object runtime, together with proofs of the properties its
specification states.

* Keys (`icinga::String`) are an arbitrary linearly ordered type `K`; the
  byte-wise order of `std::string` is one such order.
* Values (`icinga::Value`) are an arbitrary type `V` carrying the two things
  the source uses of them: the `Empty` constant and `Value::Clone`.
* `m_Data` (`std::map<String, Value>`) is the list of its pairs in iteration
  order.  An iterator is a position in that list, `end()` being its length.
* One thread runs the calls.  A call that throws leaves through `Result.threw`,
  a failed `ASSERT` through `Result.aborted`.
* Objects live in a `Heap`, a `Dictionary::Ptr` is an index into it, so that
  operations on two dictionaries (`CopyTo`, `ShallowClone`, `Clone`) can alias.
-/

set_option linter.unusedSectionVars false

namespace icinga

/-- Modelled from the spec: the dynamically typed value stored in the container, an
external collaborator.  `Empty` is the defined empty value, `Clone` the value's own
clone operation used by the deep copy. -/
class Value (V : Type) where
  Empty : V
  Clone : V → V

/-- How a call ends: it returns, it throws `std::invalid_argument` (the spec's
MutationOnFrozen error), a failed `ASSERT` aborts the process, the calling thread blocks
forever on a mutex it holds itself, or the behaviour is not defined by the language. -/
inductive Result (α : Type) where
  | returned (value : α)
  | threw (what : String)
  | aborted
  | deadlock
  | undefined
  deriving DecidableEq

/-- The payload of `DictionaryData`: `std::vector<std::pair<String, Value>>`. -/
abbrev DictionaryData (K V : Type) := List (K × V)

/-! ## `std::map<String, Value>` -/

namespace Map

variable {K V : Type} [LinearOrder K]

/-- The iterator `m.begin()`. -/
def begin (_m : List (K × V)) : Nat := 0

/-- The iterator `m.end()`. -/
def «end» (m : List (K × V)) : Nat := m.length

/-- The iterator `m.find(key)`: the position of the pair with that key, `m.end()` when
there is none.  The keys of a `std::map` are pairwise different, so the first pair with
the key is the only one. -/
def find : List (K × V) → K → Nat
  | [], _ => 0
  | (k, _) :: rest, key => if k = key then 0 else find rest key + 1

/-- The statement `m[key] = value`: overwrite the value of an existing key, else insert
the pair at its place in key order. -/
def assign : List (K × V) → K → V → List (K × V)
  | [], key, value => [(key, value)]
  | (k, v) :: rest, key, value =>
    if key < k then (key, value) :: (k, v) :: rest
    else if k < key then (k, v) :: assign rest key value
    else (k, value) :: rest

/-- The call `m.insert(kv)`: insert the pair at its place in key order unless the key
exists already, in which case the map stays as it is. -/
def insert : List (K × V) → K × V → List (K × V)
  | [], kv => [kv]
  | (k, v) :: rest, kv =>
    if kv.1 < k then kv :: (k, v) :: rest
    else if k < kv.1 then (k, v) :: insert rest kv
    else (k, v) :: rest

/-- The call `m.erase(it)` for a dereferenceable iterator. -/
def erase (m : List (K × V)) (it : Nat) : List (K × V) := m.eraseIdx it

/-- The value stored under `key`, if any: the first pair of the list with that key. -/
def lookup : List (K × V) → K → Option V
  | [], _ => none
  | (k, v) :: rest, key => if k = key then some v else lookup rest key

/-- The class invariant of `std::map`: keys strictly ascending in iteration order. -/
def Ordered (m : List (K × V)) : Prop := (m.map Prod.fst).Pairwise (· < ·)

instance (m : List (K × V)) : Decidable (Ordered m) := by
  unfold Ordered; infer_instance

end Map

/-! ## The object -/

/-- The state of one `Dictionary` object.  `lockCount` is modelled from the spec: the
reentrant object-level lock, as the number of times the calling thread holds it. -/
structure Dictionary (K V : Type) where
  m_Data : List (K × V)
  m_Frozen : Bool
  lockCount : Nat
  deriving DecidableEq

namespace Dictionary

variable {K V : Type} [LinearOrder K] [Value V]

/-- Modelled from the spec: `ObjectLock olock(this)`, acquiring the reentrant
object-level lock once more. -/
def Lock (this : Dictionary K V) : Dictionary K V :=
  { this with lockCount := this.lockCount + 1 }

/-- Modelled from the spec: the end of an `ObjectLock` guard's scope. -/
def Unlock (this : Dictionary K V) : Dictionary K V :=
  { this with lockCount := this.lockCount - 1 }

/-- Modelled from the spec: `OwnsLock()`, whether the calling thread holds the
object-level lock. -/
def OwnsLock (this : Dictionary K V) : Bool := decide (0 < this.lockCount)

/-- The default constructor `Dictionary()`. -/
def empty : Dictionary K V := { m_Data := [], m_Frozen := false, lockCount := 0 }

/-- The constructor `Dictionary(const DictionaryData& other)`. -/
def ofData (other : DictionaryData K V) : Dictionary K V :=
  { m_Data := other.foldl Map.insert [], m_Frozen := false, lockCount := 0 }

/-- The constructor `Dictionary(DictionaryData&& other)`. -/
def ofMovedData (other : DictionaryData K V) : Dictionary K V :=
  { m_Data := other.foldl Map.insert [], m_Frozen := false, lockCount := 0 }

/-- The constructor `Dictionary(std::initializer_list<Pair> init)`, which builds `m_Data`
from the list by `std::map`'s range insertion. -/
def ofInitializerList (init : List (K × V)) : Dictionary K V :=
  { m_Data := init.foldl Map.insert [], m_Frozen := false, lockCount := 0 }

/-- `Value Get(const String& key) const`. -/
def Get (this : Dictionary K V) (key : K) : V :=
  let it := Map.find this.m_Data key
  if it = Map.end this.m_Data then Value.Empty
  else match this.m_Data[it]? with
    | some kv => kv.2
    | none => Value.Empty

/-- `bool Get(const String& key, Value *result) const`: the returned flag and the
content of `*result` afterwards. -/
def GetInto (this : Dictionary K V) (key : K) (result : V) : Bool × V :=
  let it := Map.find this.m_Data key
  if it = Map.end this.m_Data then (false, result)
  else match this.m_Data[it]? with
    | some kv => (true, kv.2)
    | none => (false, result)

/-- `void Set(const String& key, Value value)`. -/
def Set (this : Dictionary K V) (key : K) (value : V) : Result Unit × Dictionary K V :=
  let this := this.Lock
  if this.m_Frozen then
    (.threw "Value in dictionary must not be modified.", this.Unlock)
  else
    (.returned (), Unlock { this with m_Data := Map.assign this.m_Data key value })

/-- `size_t GetLength() const`. -/
def GetLength (this : Dictionary K V) : Nat := this.m_Data.length

/-- `bool Contains(const String& key) const`. -/
def Contains (this : Dictionary K V) (key : K) : Bool :=
  decide (Map.find this.m_Data key ≠ Map.end this.m_Data)

/-- `bool Frozen() const`. -/
def Frozen (this : Dictionary K V) : Bool := this.m_Frozen

/-- Modelled from the spec: the `ASSERT` of `base/debug.hpp`, checked in debug builds
(`I2_DEBUG`) only. -/
def assertFails (I2_DEBUG : Bool) (expr : Bool) : Bool := I2_DEBUG && !expr

/-- `Iterator Begin()`. -/
def Begin (I2_DEBUG : Bool) (this : Dictionary K V) : Result Nat :=
  if assertFails I2_DEBUG (this.Frozen || this.OwnsLock) then .aborted
  else .returned (Map.begin this.m_Data)

/-- `Iterator End()`. -/
def End (I2_DEBUG : Bool) (this : Dictionary K V) : Result Nat :=
  if assertFails I2_DEBUG (this.Frozen || this.OwnsLock) then .aborted
  else .returned (Map.end this.m_Data)

/-- `void Remove(Iterator it)`.  Erasing through an iterator that does not point at an
element is not defined by `std::map`. -/
def RemoveAt (I2_DEBUG : Bool) (this : Dictionary K V) (it : Nat) :
    Result Unit × Dictionary K V :=
  if assertFails I2_DEBUG this.OwnsLock then (.aborted, this)
  else if this.m_Frozen then (.threw "Dictionary must not be modified.", this)
  else if it < Map.end this.m_Data then
    (.returned (), { this with m_Data := Map.erase this.m_Data it })
  else (.undefined, this)

/-- `void Remove(const String& key)`. -/
def Remove (this : Dictionary K V) (key : K) : Result Unit × Dictionary K V :=
  let this := this.Lock
  if this.m_Frozen then
    (.threw "Dictionary must not be modified.", this.Unlock)
  else
    let it := Map.find this.m_Data key
    if it = Map.end this.m_Data then (.returned (), this.Unlock)
    else (.returned (), Unlock { this with m_Data := Map.erase this.m_Data it })

/-- `void Clear()`. -/
def Clear (this : Dictionary K V) : Result Unit × Dictionary K V :=
  let this := this.Lock
  if this.m_Frozen then
    (.threw "Dictionary must not be modified.", this.Unlock)
  else
    (.returned (), Unlock { this with m_Data := [] })

/-- `std::vector<String> GetKeys() const`. -/
def GetKeys (this : Dictionary K V) : List K :=
  this.m_Data.foldl (fun keys kv => keys ++ [kv.1]) []

/-- `void Freeze()`. -/
def Freeze (this : Dictionary K V) : Result Unit × Dictionary K V :=
  let this := this.Lock
  (.returned (), Unlock { this with m_Frozen := true })

end Dictionary

/-! ## Sequences of calls on one object -/

/-- The mutating calls `Set`, `Remove(key)` and `Clear`. -/
inductive Mutation (K V : Type) where
  | Set (key : K) (value : V)
  | Remove (key : K)
  | Clear
  deriving DecidableEq

/-- The member functions of one dictionary that the specification's state machine
speaks of: the mutating ones, `Freeze`, and the reading ones. -/
inductive Op (K V : Type) where
  | Set (key : K) (value : V)
  | Remove (key : K)
  | RemoveAt (it : Nat)
  | Clear
  | Freeze
  | Get (key : K)
  | GetInto (key : K) (result : V)
  | Contains (key : K)
  | GetLength
  | GetKeys
  | Frozen
  | Begin
  | End
  deriving DecidableEq

/-- The ways a dictionary is constructed. -/
inductive Ctor (K V : Type) where
  | empty
  | ofData (other : DictionaryData K V)
  | ofMovedData (other : DictionaryData K V)
  | ofInitializerList (init : List (K × V))
  deriving DecidableEq

namespace Dictionary

variable {K V : Type} [LinearOrder K] [Value V]

/-- The object a constructor call builds. -/
def construct : Ctor K V → Dictionary K V
  | .empty => Dictionary.empty
  | .ofData other => Dictionary.ofData other
  | .ofMovedData other => Dictionary.ofMovedData other
  | .ofInitializerList init => Dictionary.ofInitializerList init

/-- One mutating call: how it ends and the object afterwards. -/
def mutate (this : Dictionary K V) : Mutation K V → Result Unit × Dictionary K V
  | .Set key value => this.Set key value
  | .Remove key => this.Remove key
  | .Clear => this.Clear

/-- A sequence of mutating calls, one after the other; a call that throws is caught
and the sequence goes on. -/
def mutateAll (this : Dictionary K V) (ms : List (Mutation K V)) : Dictionary K V :=
  ms.foldl (fun d m => (d.mutate m).2) this

/-- One member call: how it ends and the object afterwards.  The value a reading call
returns is dropped: the const member functions leave the object as it is. -/
def step (I2_DEBUG : Bool) (this : Dictionary K V) : Op K V → Result Unit × Dictionary K V
  | .Set key value => this.Set key value
  | .Remove key => this.Remove key
  | .RemoveAt it => this.RemoveAt I2_DEBUG it
  | .Clear => this.Clear
  | .Freeze => this.Freeze
  | .Get _ => (.returned (), this)
  | .GetInto _ _ => (.returned (), this)
  | .Contains _ => (.returned (), this)
  | .GetLength => (.returned (), this)
  | .GetKeys => (.returned (), this)
  | .Frozen => (.returned (), this)
  | .Begin =>
    match this.Begin I2_DEBUG with
    | .returned _ => (.returned (), this)
    | _ => (.aborted, this)
  | .End =>
    match this.End I2_DEBUG with
    | .returned _ => (.returned (), this)
    | _ => (.aborted, this)

/-- A sequence of member calls, one after the other, on an object. -/
def stepAll (I2_DEBUG : Bool) (this : Dictionary K V) (ops : List (Op K V)) :
    Dictionary K V :=
  ops.foldl (fun d op => (d.step I2_DEBUG op).2) this

end Dictionary

/-! ## Objects behind `Dictionary::Ptr` -/

/-- A `Dictionary::Ptr`: the position of the object in the heap. -/
abbrev Ptr := Nat

/-- The dictionaries allocated so far. -/
abbrev Heap (K V : Type) := List (Dictionary K V)

namespace Heap

variable {K V : Type} [LinearOrder K] [Value V]

/-- The expression `new Dictionary(...)`: the object is placed at a fresh address. -/
def alloc (h : Heap K V) (d : Dictionary K V) : Ptr × Heap K V := (h.length, h ++ [d])

/-- A member call `p->f(...)`.  A call through a pointer to no object is not defined. -/
def call (h : Heap K V) (p : Ptr) (f : Dictionary K V → Result Unit × Dictionary K V) :
    Result Unit × Heap K V :=
  match h[p]? with
  | none => (.undefined, h)
  | some d => ((f d).1, h.set p (f d).2)

/-- The call `p->Set(key, value)`. -/
def Set (h : Heap K V) (p : Ptr) (key : K) (value : V) : Result Unit × Heap K V :=
  call h p (fun d => d.Set key value)

/-- The loop of `CopyTo` over the pairs of `this` still to be copied.  When `dest` is
`this` itself, `dest->Set` asks for the exclusive lock on `m_DataMutex` while the thread
holds the shared lock `CopyTo` took, and the thread blocks.  An exception thrown by
`dest->Set` ends the loop and leaves `CopyTo`. -/
def CopyToLoop (this dest : Ptr) : Heap K V → List (K × V) → Result Unit × Heap K V
  | h, [] => (.returned (), h)
  | h, kv :: rest =>
    if dest = this then (.deadlock, h)
    else
      match Heap.Set h dest kv.1 kv.2 with
      | (.returned _, h1) => CopyToLoop this dest h1 rest
      | (r, h1) => (r, h1)

/-- `void Dictionary::CopyTo(const Dictionary::Ptr& dest) const`, called on `this`. -/
def CopyTo (h : Heap K V) (this dest : Ptr) : Result Unit × Heap K V :=
  match h[this]? with
  | none => (.undefined, h)
  | some d => CopyToLoop this dest h d.m_Data

/-- `Dictionary::Ptr Dictionary::ShallowClone() const`, called on `this`. -/
def ShallowClone (h : Heap K V) (this : Ptr) : Result Ptr × Heap K V :=
  match h[this]? with
  | none => (.undefined, h)
  | some _ =>
    let clone := alloc h Dictionary.empty
    match CopyTo clone.2 this clone.1 with
    | (.returned _, h1) => (.returned clone.1, h1)
    | (.threw what, h1) => (.threw what, h1)
    | (.aborted, h1) => (.aborted, h1)
    | (.deadlock, h1) => (.deadlock, h1)
    | (.undefined, h1) => (.undefined, h1)

/-- `Object::Ptr Dictionary::Clone() const`, called on `this`: the pairs are collected
in `dict`, every value through its own `Clone`, and the new object is constructed from
the moved `dict`. -/
def Clone (h : Heap K V) (this : Ptr) : Result Ptr × Heap K V :=
  match h[this]? with
  | none => (.undefined, h)
  | some d =>
    let dict : DictionaryData K V :=
      d.m_Data.foldl (fun dict kv => dict ++ [(kv.1, Value.Clone kv.2)]) []
    let clone := alloc h (Dictionary.ofMovedData dict)
    (.returned clone.1, clone.2)

end Heap

/-- A call in a program over several dictionaries. -/
inductive Call (K V : Type) where
  | member (p : Ptr) (op : Op K V)
  | CopyTo (this dest : Ptr)
  | ShallowClone (this : Ptr)
  | Clone (this : Ptr)
  | construct (c : Ctor K V)
  deriving DecidableEq

namespace Heap

variable {K V : Type} [LinearOrder K] [Value V]

/-- The heap after one call. -/
def step (I2_DEBUG : Bool) (h : Heap K V) : Call K V → Heap K V
  | .member p op => (call h p (fun d => d.step I2_DEBUG op)).2
  | .CopyTo this dest => (CopyTo h this dest).2
  | .ShallowClone this => (ShallowClone h this).2
  | .Clone this => (Clone h this).2
  | .construct c => (alloc h (Dictionary.construct c)).2

/-- The heap after a sequence of calls. -/
def run (I2_DEBUG : Bool) (h : Heap K V) (calls : List (Call K V)) : Heap K V :=
  calls.foldl (step I2_DEBUG) h

end Heap

/-! ## The lock guard, the field bridge and the events of `Clone` -/

/-- Modelled from the spec: the guard `ObjectLock` of the object-level lock; `m_Locked`
tells whether the guard has acquired the lock. -/
structure ObjectLock where
  m_Locked : Bool
  deriving DecidableEq

/-- What `Clone` does, step by step: it takes or releases a shared lock on
`m_DataMutex`, calls the `Clone` of a stored value, or constructs the new object. -/
inductive CloneEvent (K V : Type) where
  | lockShared
  | unlockShared
  | valueClone (key : K) (value : V)
  | construct

namespace CloneEvent

variable {K V : Type}

/-- Whether the event takes a shared lock. -/
def isLock : CloneEvent K V → Bool
  | .lockShared => true
  | _ => false

/-- Whether the event releases a shared lock. -/
def isUnlock : CloneEvent K V → Bool
  | .unlockShared => true
  | _ => false

/-- Whether the event is a call of a stored value's `Clone`. -/
def isValueClone : CloneEvent K V → Bool
  | .valueClone _ _ => true
  | _ => false

/-- The number of shared locks on `m_DataMutex` the thread holds after the events. -/
def sharedHeld (events : List (CloneEvent K V)) : Nat :=
  events.countP isLock - events.countP isUnlock

end CloneEvent

namespace Dictionary

variable {K V : Type} [LinearOrder K] [Value V]

/-- `ObjectLock LockIfRequired()`: the guard returned and the object afterwards.
`ObjectLock(this, std::defer_lock)` is a guard that has not locked, `ObjectLock(this)`
one that has; the guard is handed to the caller, who holds the lock from then on. -/
def LockIfRequired (this : Dictionary K V) : ObjectLock × Dictionary K V :=
  if this.Frozen then ({ m_Locked := false }, this)
  else ({ m_Locked := true }, this.Lock)

/-- `Value GetFieldByName(const String& field, bool, const DebugInfo& debugInfo) const`.
`GetPrototypeField` is the type system's prototype field resolution, which is not part
of this file: it is a parameter, called with the object, the field, `false` and the
debug info.  The local `Value value;` starts as the empty value. -/
def GetFieldByName {DI : Type}
    (GetPrototypeField : Dictionary K V → K → Bool → DI → Result V)
    (this : Dictionary K V) (field : K) (_sandboxed : Bool) (debugInfo : DI) : Result V :=
  let value : V := Value.Empty
  let found := this.GetInto field value
  if found.1 then .returned found.2
  else GetPrototypeField this field false debugInfo

/-- `void SetFieldByName(const String& field, const Value& value, const DebugInfo&)`. -/
def SetFieldByName {DI : Type} (this : Dictionary K V) (field : K) (value : V)
    (_debugInfo : DI) : Result Unit × Dictionary K V :=
  this.Set field value

/-- `bool HasOwnField(const String& field) const`. -/
def HasOwnField (this : Dictionary K V) (field : K) : Bool := this.Contains field

/-- `bool GetOwnField(const String& field, Value *result) const`: the returned flag and
the content of `*result` afterwards. -/
def GetOwnField (this : Dictionary K V) (field : K) (result : V) : Bool × V :=
  this.GetInto field result

/-- The pairs a loop `for (it = first; it != last; ++it)` over `m_Data` visits. -/
def pairsInRange (this : Dictionary K V) (first last : Nat) : List (K × V) :=
  (this.m_Data.drop first).take (last - first)

/-- The range-based loop over a dictionary that the exported `begin` and `end` serve:
the pairs from `Begin()` to `End()`, unless an assertion fails. -/
def iterate (I2_DEBUG : Bool) (this : Dictionary K V) : Result (List (K × V)) :=
  match this.Begin I2_DEBUG, this.End I2_DEBUG with
  | .returned first, .returned last => .returned (this.pairsInRange first last)
  | _, _ => .aborted

/-- The events of `Clone()` in the order of the source: the shared lock of the inner
block is taken; `GetLength()` takes and releases a shared lock of its own; the loop calls
`kv.second.Clone()` for every pair; the block ends and its lock is released; the new
object is constructed. -/
def CloneEvents (this : Dictionary K V) : List (CloneEvent K V) :=
  [CloneEvent.lockShared] ++ [CloneEvent.lockShared, CloneEvent.unlockShared] ++
    this.m_Data.map (fun kv => CloneEvent.valueClone kv.1 kv.2) ++
    [CloneEvent.unlockShared] ++ [CloneEvent.construct]

end Dictionary

/-! ## The specification's reading of a call history -/

/-- The spec's words "`k` was set and not subsequently removed/cleared", read on a
sequence of mutating calls: some call of the sequence is `Set(k, _)` and no later call
is `Remove(k)` or `Clear()`. -/
def SetAndNotRemovedSince {K V : Type} (ms : List (Mutation K V)) (k : K) : Prop :=
  ∃ before value after, ms = before ++ Mutation.Set k value :: after ∧
    ∀ m ∈ after, m ≠ Mutation.Remove k ∧ m ≠ Mutation.Clear

/-- The value of the first pair of a sequence that carries the key `k`, if any. -/
def firstValueOf {K V : Type} [DecidableEq K] (l : List (K × V)) (k : K) : Option V :=
  (l.find? (fun kv => decide (kv.1 = k))).map Prod.snd

/-- The value of the last pair of a sequence that carries the key `k`, if any. -/
def lastValueOf {K V : Type} [DecidableEq K] (l : List (K × V)) (k : K) : Option V :=
  firstValueOf l.reverse k

/-- Replaying a sequence of pairs through `Set` on an empty dictionary. -/
def replaySets {K V : Type} [LinearOrder K] [Value V] (l : List (K × V)) :
    Dictionary K V :=
  Dictionary.empty.mutateAll (l.map (fun kv => Mutation.Set kv.1 kv.2))

/-- A sample value type for concrete runs: `none` is the empty value, and cloning a
number yields the number. -/
instance : Value (Option Nat) where
  Empty := none
  Clone := id

/-! ## Sample objects -/

/-- The spec's example scenario: an empty dictionary, then `Set("x", 10)`, then
`Freeze()`. -/
def scenarioFrozen : Dictionary String (Option Nat) :=
  ((Dictionary.empty.Set "x" (some 10)).2.Freeze).2

/-- An unfrozen dictionary with the keys 2 and 5. -/
def sampleDict : Dictionary Nat (Option Nat) :=
  { m_Data := [(2, some 20), (5, some 50)], m_Frozen := false, lockCount := 0 }

/-- A heap of two objects: `sampleDict` at address 0 and an unfrozen dictionary with the
keys 1 and 2 at address 1. -/
def sampleHeap : Heap Nat (Option Nat) :=
  [sampleDict, { m_Data := [(1, some 1), (2, some 2)], m_Frozen := false, lockCount := 1 }]

/-- A frozen dictionary with the key 2, whose lock the calling thread does not hold. -/
def sampleFrozen : Dictionary Nat (Option Nat) :=
  { m_Data := [(2, some 20)], m_Frozen := true, lockCount := 0 }

/-- A heap of two objects: an empty dictionary at address 0 and `sampleFrozen` at
address 1. -/
def frozenHeap : Heap Nat (Option Nat) := [Dictionary.empty, sampleFrozen]

/-- A sequence of pairs in which the key 1 occurs three times, with the values 1, 2
and 1. -/
def repeatedKey : List (Nat × Option Nat) := [(1, some 1), (1, some 2), (1, some 1)]

/-! ## Facts about the map -/

namespace Map

variable {K V : Type} [LinearOrder K]

theorem find_le_length (m : List (K × V)) (key : K) : find m key ≤ m.length := by
  induction m with
  | nil => simp [find]
  | cons kv rest ih =>
    obtain ⟨k, v⟩ := kv
    by_cases hk : k = key <;> simp [find, hk]
    exact ih

theorem find_eq_length_iff (m : List (K × V)) (key : K) :
    find m key = m.length ↔ lookup m key = none := by
  induction m with
  | nil => simp [find, lookup]
  | cons kv rest ih =>
    obtain ⟨k, v⟩ := kv
    by_cases hk : k = key <;> simp [find, lookup, hk]
    exact ih

theorem getElem?_find (m : List (K × V)) (key : K) :
    m[find m key]? = (lookup m key).map (fun v => (key, v)) := by
  induction m with
  | nil => simp [find, lookup]
  | cons kv rest ih =>
    obtain ⟨k, v⟩ := kv
    by_cases hk : k = key <;> simp [find, lookup, hk]
    exact ih

theorem lookup_isSome_iff (m : List (K × V)) (key : K) :
    (lookup m key).isSome = true ↔ key ∈ m.map Prod.fst := by
  induction m with
  | nil => simp [lookup]
  | cons kv rest ih =>
    obtain ⟨k, v⟩ := kv
    by_cases hk : k = key
    · simp [lookup, hk]
    · have hk2 : ¬ key = k := fun h => hk h.symm
      simp only [lookup, hk, if_false, ih, List.map_cons, List.mem_cons, hk2, false_or]

theorem lookup_eq_none_iff (m : List (K × V)) (key : K) :
    lookup m key = none ↔ key ∉ m.map Prod.fst := by
  rw [← lookup_isSome_iff]
  cases lookup m key <;> simp

theorem ordered_nil : Ordered ([] : List (K × V)) := by
  simp [Ordered]

theorem ordered_cons (kv : K × V) (m : List (K × V)) :
    Ordered (kv :: m) ↔ (∀ x ∈ m, kv.1 < x.1) ∧ Ordered m := by
  simp [Ordered, List.pairwise_cons]

theorem Ordered.nodup {m : List (K × V)} (h : Ordered m) : (m.map Prod.fst).Nodup :=
  List.Pairwise.imp (fun hab => ne_of_lt hab) h

theorem lookup_eq_none_of_lt {m : List (K × V)} {key : K}
    (h : ∀ x ∈ m, key < x.1) : lookup m key = none := by
  rw [lookup_eq_none_iff]
  intro hmem
  obtain ⟨x, hx, rfl⟩ := List.mem_map.1 hmem
  exact lt_irrefl _ (h x hx)

theorem lookup_eq_some_iff {m : List (K × V)} (h : Ordered m) (key : K) (v : V) :
    lookup m key = some v ↔ (key, v) ∈ m := by
  induction m with
  | nil => simp [lookup]
  | cons kv rest ih =>
    obtain ⟨k, w⟩ := kv
    rw [ordered_cons] at h
    by_cases hk : k = key
    · subst hk
      have hno : ∀ u, (k, u) ∉ rest := fun u hu => lt_irrefl _ (h.1 (k, u) hu)
      simp only [lookup, if_true, Option.some.injEq, List.mem_cons, Prod.mk.injEq, true_and]
      constructor
      · intro e; exact Or.inl e.symm
      · rintro (e | e)
        · exact e.symm
        · exact absurd e (hno v)
    · have hk2 : ¬ key = k := fun e => hk e.symm
      simp only [lookup, hk, if_false, ih h.2, List.mem_cons, Prod.mk.injEq, hk2, false_and,
        false_or]

/-! ### `m[key] = value` -/

theorem lookup_assign (m : List (K × V)) (key : K) (value : V) (k : K) :
    lookup (assign m key value) k = if k = key then some value else lookup m k := by
  induction m with
  | nil =>
    by_cases hk : key = k
    · simp [assign, lookup, hk]
    · have hk2 : ¬ k = key := fun e => hk e.symm
      simp [assign, lookup, hk, hk2]
  | cons kv rest ih =>
    obtain ⟨k0, v0⟩ := kv
    by_cases h1 : key < k0
    · by_cases hk : key = k
      · subst hk
        simp [assign, h1, lookup]
      · have hk2 : ¬ k = key := fun e => hk e.symm
        simp [assign, h1, lookup, hk, hk2]
    · by_cases h2 : k0 < key
      · by_cases hk : k = key
        · subst hk
          have : ¬ k0 = k := ne_of_lt h2
          simp [assign, h1, h2, lookup, this, ih]
        · by_cases hk0 : k0 = k
          · subst hk0
            simp [assign, h1, h2, lookup, hk]
          · simp [assign, h1, h2, lookup, hk0, hk, ih]
      · have hkk : k0 = key := le_antisymm (not_lt.1 h1) (not_lt.1 h2)
        subst hkk
        by_cases hk : k = k0
        · subst hk
          simp [assign, lookup]
        · have hk2 : ¬ k0 = k := fun e => hk e.symm
          simp [assign, lookup, hk, hk2]

theorem mem_assign {m : List (K × V)} {key : K} {value : V} {x : K × V}
    (hx : x ∈ assign m key value) : x.1 = key ∨ x ∈ m := by
  induction m with
  | nil =>
    simp only [assign, List.mem_singleton] at hx
    subst hx
    exact Or.inl rfl
  | cons kv rest ih =>
    obtain ⟨k0, v0⟩ := kv
    by_cases h1 : key < k0
    · simp only [assign, h1, if_true, List.mem_cons] at hx
      rcases hx with hx | hx | hx
      · subst hx; exact Or.inl rfl
      · exact Or.inr (by simp [hx])
      · exact Or.inr (by simp [hx])
    · by_cases h2 : k0 < key
      · simp only [assign, h1, h2, if_true, if_false, List.mem_cons] at hx
        rcases hx with hx | hx
        · exact Or.inr (by simp [hx])
        · rcases ih hx with h | h
          · exact Or.inl h
          · exact Or.inr (by simp [h])
      · have hkk : k0 = key := le_antisymm (not_lt.1 h1) (not_lt.1 h2)
        simp only [assign, h1, h2, if_false, List.mem_cons] at hx
        rcases hx with hx | hx
        · subst hx; exact Or.inl hkk
        · exact Or.inr (by simp [hx])

theorem ordered_assign {m : List (K × V)} (h : Ordered m) (key : K) (value : V) :
    Ordered (assign m key value) := by
  induction m with
  | nil => simp [assign, Ordered]
  | cons kv rest ih =>
    obtain ⟨k0, v0⟩ := kv
    have h0 := (ordered_cons _ _).1 h
    by_cases h1 : key < k0
    · simp only [assign, h1, if_true]
      rw [ordered_cons]
      refine ⟨?_, h⟩
      intro x hx
      rcases List.mem_cons.1 hx with hx | hx
      · subst hx; exact h1
      · exact lt_trans h1 (h0.1 x hx)
    · by_cases h2 : k0 < key
      · simp only [assign, h1, h2, if_true, if_false]
        rw [ordered_cons]
        refine ⟨?_, ih h0.2⟩
        intro x hx
        rcases mem_assign hx with hx | hx
        · rw [hx]; exact h2
        · exact h0.1 x hx
      · simp only [assign, h1, h2, if_false]
        rw [ordered_cons]
        exact ⟨h0.1, h0.2⟩

theorem length_assign {m : List (K × V)} (h : Ordered m) (key : K) (value : V) :
    (assign m key value).length =
      if (lookup m key).isSome then m.length else m.length + 1 := by
  induction m with
  | nil => simp [assign, lookup]
  | cons kv rest ih =>
    obtain ⟨k0, v0⟩ := kv
    have h0 := (ordered_cons _ _).1 h
    by_cases h1 : key < k0
    · have hno : lookup ((k0, v0) :: rest) key = none := by
        apply lookup_eq_none_of_lt
        intro x hx
        rcases List.mem_cons.1 hx with hx | hx
        · subst hx; exact h1
        · exact lt_trans h1 (h0.1 x hx)
      simp [assign, h1, hno]
    · by_cases h2 : k0 < key
      · have hne : ¬ k0 = key := ne_of_lt h2
        simp only [assign, h1, h2, if_true, if_false, List.length_cons, ih h0.2, lookup, hne]
        split <;> rfl
      · have hkk : k0 = key := le_antisymm (not_lt.1 h1) (not_lt.1 h2)
        simp [assign, h1, h2, lookup, hkk]

/-! ### `m.erase(it)` -/

theorem ordered_erase {m : List (K × V)} (h : Ordered m) (it : Nat) :
    Ordered (erase m it) :=
  List.Pairwise.sublist ((List.eraseIdx_sublist m it).map Prod.fst) h

theorem length_erase (m : List (K × V)) (it : Nat) (h : it < m.length) :
    (erase m it).length = m.length - 1 := by
  simp [erase, List.length_eraseIdx, h]

theorem lookup_erase_find {m : List (K × V)} (h : Ordered m) (key k : K) :
    lookup (erase m (find m key)) k = if k = key then none else lookup m k := by
  induction m with
  | nil => simp [erase, find, lookup]
  | cons kv rest ih =>
    obtain ⟨k0, v0⟩ := kv
    have h0 := (ordered_cons _ _).1 h
    by_cases hk0 : k0 = key
    · subst hk0
      by_cases hk : k = k0
      · subst hk
        simp [erase, find, lookup_eq_none_of_lt h0.1]
      · have hk2 : ¬ k0 = k := fun e => hk e.symm
        simp [erase, find, lookup, hk, hk2]
    · have ih0 := ih h0.2
      simp only [erase] at ih0
      by_cases hk : k0 = k
      · subst hk
        simp [erase, find, lookup, hk0]
      · simp [erase, find, lookup, hk0, hk, ih0]

/-! ### `m.insert(kv)` -/

theorem mem_insert {m : List (K × V)} {kv x : K × V} (hx : x ∈ insert m kv) :
    x.1 = kv.1 ∨ x ∈ m := by
  induction m with
  | nil =>
    simp only [insert, List.mem_singleton] at hx
    subst hx
    exact Or.inl rfl
  | cons kv0 rest ih =>
    obtain ⟨k0, v0⟩ := kv0
    by_cases h1 : kv.1 < k0
    · simp only [insert, h1, if_true, List.mem_cons] at hx
      rcases hx with hx | hx | hx
      · subst hx; exact Or.inl rfl
      · exact Or.inr (by simp [hx])
      · exact Or.inr (by simp [hx])
    · by_cases h2 : k0 < kv.1
      · simp only [insert, h1, h2, if_true, if_false, List.mem_cons] at hx
        rcases hx with hx | hx
        · exact Or.inr (by simp [hx])
        · rcases ih hx with h | h
          · exact Or.inl h
          · exact Or.inr (by simp [h])
      · simp only [insert, h1, h2, if_false] at hx
        exact Or.inr hx

theorem ordered_insert {m : List (K × V)} (h : Ordered m) (kv : K × V) :
    Ordered (insert m kv) := by
  induction m with
  | nil => simp [insert, Ordered]
  | cons kv0 rest ih =>
    obtain ⟨k0, v0⟩ := kv0
    have h0 := (ordered_cons _ _).1 h
    by_cases h1 : kv.1 < k0
    · simp only [insert, h1, if_true]
      rw [ordered_cons]
      refine ⟨?_, h⟩
      intro x hx
      rcases List.mem_cons.1 hx with hx | hx
      · subst hx; exact h1
      · exact lt_trans h1 (h0.1 x hx)
    · by_cases h2 : k0 < kv.1
      · simp only [insert, h1, h2, if_true, if_false]
        rw [ordered_cons]
        refine ⟨?_, ih h0.2⟩
        intro x hx
        rcases mem_insert hx with hx | hx
        · rw [hx]; exact h2
        · exact h0.1 x hx
      · simp only [insert, h1, h2, if_false]
        exact h

theorem ordered_foldl_insert (l : List (K × V)) {m : List (K × V)} (h : Ordered m) :
    Ordered (l.foldl insert m) := by
  induction l generalizing m with
  | nil => exact h
  | cons kv rest ih => exact ih (ordered_insert h kv)

/-- Appending a pair whose key is above every key of the map: what `insert` and
`assign` do when the pairs arrive in key order. -/
theorem insert_of_lt {m : List (K × V)} {kv : K × V} (h : ∀ x ∈ m, x.1 < kv.1) :
    insert m kv = m ++ [kv] := by
  induction m with
  | nil => simp [insert]
  | cons kv0 rest ih =>
    obtain ⟨k0, v0⟩ := kv0
    have h1 : k0 < kv.1 := h (k0, v0) (by simp)
    have h2 : ¬ kv.1 < k0 := not_lt.2 (le_of_lt h1)
    simp only [insert, h1, h2, if_true, if_false, List.cons_append]
    rw [ih (fun x hx => h x (by simp [hx]))]

theorem assign_of_lt {m : List (K × V)} {key : K} (value : V) (h : ∀ x ∈ m, x.1 < key) :
    assign m key value = m ++ [(key, value)] := by
  induction m with
  | nil => simp [assign]
  | cons kv0 rest ih =>
    obtain ⟨k0, v0⟩ := kv0
    have h1 : k0 < key := h (k0, v0) (by simp)
    have h2 : ¬ key < k0 := not_lt.2 (le_of_lt h1)
    simp only [assign, h1, h2, if_true, if_false, List.cons_append]
    rw [ih (fun x hx => h x (by simp [hx]))]

/-! ### Copying a whole map pair by pair -/

theorem ordered_append_cons {acc rest : List (K × V)} {kv : K × V}
    (h : Ordered (acc ++ kv :: rest)) :
    (∀ x ∈ acc, x.1 < kv.1) ∧ Ordered ((acc ++ [kv]) ++ rest) := by
  constructor
  · intro x hx
    unfold Ordered at h
    rw [List.map_append, List.pairwise_append] at h
    exact h.2.2 x.1 (List.mem_map_of_mem _ hx) kv.1 (by simp)
  · simpa using h

/-- Assigning the pairs of an ordered list, in order, behind a map whose keys are all
below them appends them. -/
theorem foldl_assign_of_ordered (l : List (K × V)) :
    ∀ acc : List (K × V), Ordered (acc ++ l) →
      l.foldl (fun m kv => assign m kv.1 kv.2) acc = acc ++ l := by
  induction l with
  | nil => intro acc _; simp
  | cons kv rest ih =>
    intro acc h
    obtain ⟨h1, h2⟩ := ordered_append_cons h
    simp only [List.foldl_cons]
    rw [assign_of_lt kv.2 h1, ih _ h2]
    simp

theorem foldl_insert_of_ordered (l : List (K × V)) :
    ∀ acc : List (K × V), Ordered (acc ++ l) → l.foldl insert acc = acc ++ l := by
  induction l with
  | nil => intro acc _; simp
  | cons kv rest ih =>
    intro acc h
    obtain ⟨h1, h2⟩ := ordered_append_cons h
    simp only [List.foldl_cons]
    rw [insert_of_lt h1, ih _ h2]
    simp

theorem ordered_foldl_assign (l : List (K × V)) :
    ∀ acc : List (K × V), Ordered acc →
      Ordered (l.foldl (fun m kv => assign m kv.1 kv.2) acc) := by
  induction l with
  | nil => intro acc h; exact h
  | cons kv rest ih => intro acc h; exact ih _ (ordered_assign h kv.1 kv.2)

/-- After assigning the pairs of an ordered list, a key of the list has the list's
value and every other key the value it had. -/
theorem lookup_foldl_assign {l : List (K × V)} (hl : Ordered l) :
    ∀ (acc : List (K × V)) (k : K),
      lookup (l.foldl (fun m kv => assign m kv.1 kv.2) acc) k =
        if (lookup l k).isSome then lookup l k else lookup acc k := by
  induction l with
  | nil => intro acc k; simp [lookup]
  | cons kv rest ih =>
    intro acc k
    obtain ⟨k0, v0⟩ := kv
    have h0 := (ordered_cons _ _).1 hl
    simp only [List.foldl_cons]
    rw [ih h0.2, lookup_assign]
    by_cases hk : k0 = k
    · subst hk
      have hno : lookup rest k0 = none := lookup_eq_none_of_lt h0.1
      simp [lookup, hno]
    · have hk2 : ¬ k = k0 := fun e => hk e.symm
      simp [lookup, hk, hk2]

theorem lookup_map_value (f : V → V) (m : List (K × V)) (k : K) :
    lookup (m.map (fun kv => (kv.1, f kv.2))) k = (lookup m k).map f := by
  induction m with
  | nil => simp [lookup]
  | cons kv rest ih =>
    obtain ⟨k0, v0⟩ := kv
    by_cases hk : k0 = k <;> simp [lookup, hk, ih]

theorem foldl_push_clone (f : V → V) (l : List (K × V)) :
    ∀ acc : List (K × V),
      l.foldl (fun dict kv => dict ++ [(kv.1, f kv.2)]) acc =
        acc ++ l.map (fun kv => (kv.1, f kv.2)) := by
  induction l with
  | nil => intro acc; simp
  | cons kv rest ih => intro acc; simp [ih]

theorem ordered_map_value (f : V → V) {m : List (K × V)} (h : Ordered m) :
    Ordered (m.map (fun kv => (kv.1, f kv.2))) := by
  unfold Ordered at *
  simpa [List.map_map, Function.comp_def] using h

/-! ### First pair wins, last pair wins -/

theorem firstValueOf_eq_lookup (l : List (K × V)) (k : K) :
    firstValueOf l k = lookup l k := by
  induction l with
  | nil => simp [firstValueOf, lookup]
  | cons kv rest ih =>
    obtain ⟨k0, v0⟩ := kv
    unfold firstValueOf at ih
    by_cases hk : k0 = k <;> simp [firstValueOf, lookup, List.find?_cons, hk, ih]

theorem lookup_append (l1 l2 : List (K × V)) (k : K) :
    lookup (l1 ++ l2) k = if (lookup l1 k).isSome then lookup l1 k else lookup l2 k := by
  induction l1 with
  | nil => simp [lookup]
  | cons kv rest ih =>
    obtain ⟨k0, v0⟩ := kv
    by_cases hk : k0 = k <;> simp [lookup, hk, ih]

/-- After assigning the pairs of any list, a key of the list has the value of the last
pair carrying it and every other key the value it had. -/
theorem lookup_foldl_assign_last (l : List (K × V)) :
    ∀ (acc : List (K × V)) (k : K),
      lookup (l.foldl (fun m kv => assign m kv.1 kv.2) acc) k =
        if (lookup l.reverse k).isSome then lookup l.reverse k else lookup acc k := by
  induction l with
  | nil => intro acc k; simp [lookup]
  | cons kv rest ih =>
    intro acc k
    obtain ⟨k0, v0⟩ := kv
    simp only [List.foldl_cons, List.reverse_cons]
    rw [ih, lookup_assign, lookup_append]
    cases hr : lookup rest.reverse k with
    | some w => simp
    | none =>
      by_cases hk : k = k0
      · subst hk; simp [lookup]
      · have hk2 : ¬ k0 = k := fun e => hk e.symm
        simp [lookup, hk, hk2]

theorem lookup_insert {m : List (K × V)} (h : Ordered m) (kv : K × V) (k : K) :
    lookup (insert m kv) k =
      if (lookup m k).isSome then lookup m k
      else if kv.1 = k then some kv.2 else none := by
  induction m with
  | nil => simp [insert, lookup]
  | cons kv0 rest ih =>
    obtain ⟨k0, v0⟩ := kv0
    obtain ⟨k1, v1⟩ := kv
    have h0 := (ordered_cons _ _).1 h
    by_cases h1 : k1 < k0
    · have hno : lookup ((k0, v0) :: rest) k1 = none := by
        apply lookup_eq_none_of_lt
        intro x hx
        rcases List.mem_cons.1 hx with hx | hx
        · subst hx; exact h1
        · exact lt_trans h1 (h0.1 x hx)
      by_cases hk : k1 = k
      · subst hk
        have hne : ¬ k0 = k1 := ne_of_gt h1
        have hrest : lookup rest k1 = none :=
          lookup_eq_none_of_lt (fun x hx => lt_trans h1 (h0.1 x hx))
        simp [insert, h1, lookup, hne, hrest]
      · simp only [insert, h1, if_true, hk, if_false]
        rw [lookup]
        simp only [hk, if_false]
        cases lookup ((k0, v0) :: rest) k <;> simp
    · by_cases h2 : k0 < k1
      · have ih0 := ih h0.2
        by_cases hk0 : k0 = k
        · subst hk0
          simp [insert, h1, h2, lookup]
        · simp [insert, h1, h2, lookup, hk0, ih0]
      · have hkk : k0 = k1 := le_antisymm (not_lt.1 h1) (not_lt.1 h2)
        subst hkk
        by_cases hk0 : k0 = k
        · simp [insert, h1, lookup, hk0]
        · simp only [insert, h1, if_false, lookup, hk0]
          cases lookup rest k <;> simp

/-- After inserting the pairs of any list into an ordered map, a key the map had keeps
its value and a new key has the value of the first pair carrying it. -/
theorem lookup_foldl_insert (l : List (K × V)) :
    ∀ (acc : List (K × V)) (k : K), Ordered acc →
      lookup (l.foldl insert acc) k =
        if (lookup acc k).isSome then lookup acc k else lookup l k := by
  induction l with
  | nil =>
    intro acc k _
    cases hl : lookup acc k <;> simp [lookup, hl]
  | cons kv rest ih =>
    intro acc k hacc
    obtain ⟨k0, v0⟩ := kv
    simp only [List.foldl_cons]
    rw [ih _ k (ordered_insert hacc (k0, v0)), lookup_insert hacc]
    cases ha : lookup acc k with
    | some w => simp
    | none =>
      by_cases hk : k0 = k <;> simp [lookup, hk]

/-- Two ordered maps that give every key the same value are the same map. -/
theorem ordered_ext {m1 m2 : List (K × V)} (h1 : Ordered m1) (h2 : Ordered m2)
    (h : ∀ k, lookup m1 k = lookup m2 k) : m1 = m2 := by
  induction m1 generalizing m2 with
  | nil =>
    cases m2 with
    | nil => rfl
    | cons kv rest =>
      have := h kv.1
      simp [lookup] at this
  | cons kv1 r1 ih =>
    obtain ⟨k1, v1⟩ := kv1
    cases m2 with
    | nil =>
      have := h k1
      simp [lookup] at this
    | cons kv2 r2 =>
      obtain ⟨k2, v2⟩ := kv2
      have o1 := (ordered_cons _ _).1 h1
      have o2 := (ordered_cons _ _).1 h2
      have hk : k1 = k2 := by
        rcases lt_trichotomy k1 k2 with hlt | heq | hgt
        · have hno : lookup ((k2, v2) :: r2) k1 = none := by
            apply lookup_eq_none_of_lt
            intro x hx
            rcases List.mem_cons.1 hx with hx | hx
            · subst hx; exact hlt
            · exact lt_trans hlt (o2.1 x hx)
          have := h k1
          rw [hno] at this
          simp [lookup] at this
        · exact heq
        · have hno : lookup ((k1, v1) :: r1) k2 = none := by
            apply lookup_eq_none_of_lt
            intro x hx
            rcases List.mem_cons.1 hx with hx | hx
            · subst hx; exact hgt
            · exact lt_trans hgt (o1.1 x hx)
          have := h k2
          rw [hno] at this
          simp [lookup] at this
      subst hk
      have hv : v1 = v2 := by
        have := h k1
        simpa [lookup] using this
      subst hv
      have htail : ∀ k, lookup r1 k = lookup r2 k := by
        intro k
        by_cases hkk : k1 = k
        · subst hkk
          rw [lookup_eq_none_of_lt o1.1, lookup_eq_none_of_lt o2.1]
        · have := h k
          simpa [lookup, hkk] using this
      rw [ih o1.2 o2.2 htail]

theorem lookup_eq_some_iff_of_nodup {m : List (K × V)} (h : (m.map Prod.fst).Nodup)
    (key : K) (v : V) : lookup m key = some v ↔ (key, v) ∈ m := by
  induction m with
  | nil => simp [lookup]
  | cons kv rest ih =>
    obtain ⟨k, w⟩ := kv
    rw [List.map_cons, List.nodup_cons] at h
    by_cases hk : k = key
    · subst hk
      have hno : ∀ u, (k, u) ∉ rest := fun u hu => h.1 (List.mem_map.2 ⟨(k, u), hu, rfl⟩)
      simp only [lookup, if_true, Option.some.injEq, List.mem_cons, Prod.mk.injEq, true_and]
      constructor
      · intro e; exact Or.inl e.symm
      · rintro (e | e)
        · exact e.symm
        · exact absurd e (hno v)
    · have hk2 : ¬ key = k := fun e => hk e.symm
      simp only [lookup, hk, if_false, ih h.2, List.mem_cons, Prod.mk.injEq, hk2, false_and,
        false_or]

/-- Reordering a list of pairs with pairwise different keys does not change what a key
is paired with. -/
theorem lookup_perm {l1 l2 : List (K × V)} (hp : l1.Perm l2)
    (h : (l1.map Prod.fst).Nodup) (k : K) : lookup l1 k = lookup l2 k := by
  have h2 : (l2.map Prod.fst).Nodup := (hp.map Prod.fst).nodup_iff.1 h
  apply Option.ext
  intro v
  simp only [Option.mem_def]
  rw [lookup_eq_some_iff_of_nodup h, lookup_eq_some_iff_of_nodup h2]
  exact hp.mem_iff

end Map

/-! ## Facts about one object -/

namespace Dictionary

variable {K V : Type} [LinearOrder K] [Value V]

theorem find_of_lookup_none {m : List (K × V)} {key : K} (h : Map.lookup m key = none) :
    Map.find m key = m.length := (Map.find_eq_length_iff m key).2 h

theorem find_of_lookup_some {m : List (K × V)} {key : K} {v : V}
    (h : Map.lookup m key = some v) : Map.find m key ≠ m.length := by
  intro e
  rw [Map.find_eq_length_iff, h] at e
  cases e

theorem Get_eq (d : Dictionary K V) (key : K) :
    d.Get key = (Map.lookup d.m_Data key).getD Value.Empty := by
  cases h : Map.lookup d.m_Data key with
  | none => simp [Get, Map.end, find_of_lookup_none h]
  | some v => simp [Get, Map.end, find_of_lookup_some h, Map.getElem?_find, h]

theorem GetInto_eq (d : Dictionary K V) (key : K) (result : V) :
    d.GetInto key result =
      ((Map.lookup d.m_Data key).isSome, (Map.lookup d.m_Data key).getD result) := by
  cases h : Map.lookup d.m_Data key with
  | none => simp [GetInto, Map.end, find_of_lookup_none h]
  | some v => simp [GetInto, Map.end, find_of_lookup_some h, Map.getElem?_find, h]

theorem Contains_eq (d : Dictionary K V) (key : K) :
    d.Contains key = (Map.lookup d.m_Data key).isSome := by
  cases h : Map.lookup d.m_Data key with
  | none => simp [Contains, Map.end, find_of_lookup_none h]
  | some v => simp [Contains, Map.end, find_of_lookup_some h]

theorem GetKeys_eq (d : Dictionary K V) : d.GetKeys = d.m_Data.map Prod.fst := by
  unfold GetKeys
  have key : ∀ (l : List (K × V)) (acc : List K),
      l.foldl (fun keys kv => keys ++ [kv.1]) acc = acc ++ l.map Prod.fst := by
    intro l
    induction l with
    | nil => intro acc; simp
    | cons kv rest ih => intro acc; simp [ih]
  simpa using key d.m_Data []

theorem Unlock_Lock (d : Dictionary K V) : d.Lock.Unlock = d := by
  cases d; simp [Lock, Unlock]

theorem Set_frozen (d : Dictionary K V) (hf : d.m_Frozen = true) (key : K) (value : V) :
    d.Set key value = (.threw "Value in dictionary must not be modified.", d) := by
  have h : d.Lock.m_Frozen = true := hf
  simp [Set, h, Unlock_Lock]

theorem Remove_frozen (d : Dictionary K V) (hf : d.m_Frozen = true) (key : K) :
    d.Remove key = (.threw "Dictionary must not be modified.", d) := by
  have h : d.Lock.m_Frozen = true := hf
  simp [Remove, h, Unlock_Lock]

theorem Clear_frozen (d : Dictionary K V) (hf : d.m_Frozen = true) :
    d.Clear = (.threw "Dictionary must not be modified.", d) := by
  have h : d.Lock.m_Frozen = true := hf
  simp [Clear, h, Unlock_Lock]

theorem Freeze_eq (d : Dictionary K V) :
    d.Freeze = (.returned (), { d with m_Frozen := true }) := by
  cases d; simp [Freeze, Lock, Unlock]

theorem Set_unfrozen (d : Dictionary K V) (hf : d.m_Frozen = false) (key : K) (value : V) :
    d.Set key value =
      (.returned (), { d with m_Data := Map.assign d.m_Data key value }) := by
  cases d
  simp only at hf
  simp [Set, Lock, Unlock, hf]

theorem Remove_unfrozen (d : Dictionary K V) (hf : d.m_Frozen = false) (key : K) :
    d.Remove key =
      (.returned (), if (Map.lookup d.m_Data key).isSome
        then { d with m_Data := Map.erase d.m_Data (Map.find d.m_Data key) } else d) := by
  cases d with
  | mk m f c =>
    simp only at hf
    cases hl : Map.lookup m key with
    | none => simp [Remove, Lock, Unlock, hf, Map.end, find_of_lookup_none hl, hl]
    | some v => simp [Remove, Lock, Unlock, hf, Map.end, find_of_lookup_some hl, hl]

theorem Clear_unfrozen (d : Dictionary K V) (hf : d.m_Frozen = false) :
    d.Clear = (.returned (), { d with m_Data := [] }) := by
  cases d
  simp only at hf
  simp [Clear, Lock, Unlock, hf]

theorem step_frozen (I2_DEBUG : Bool) (d : Dictionary K V) (hf : d.m_Frozen = true)
    (op : Op K V) : (d.step I2_DEBUG op).2 = d := by
  cases op with
  | Set key value => simp [step, Set_frozen d hf]
  | Remove key => simp [step, Remove_frozen d hf]
  | RemoveAt it =>
    simp only [step, RemoveAt, hf, if_true]
    split <;> rfl
  | Clear => simp [step, Clear_frozen d hf]
  | Freeze =>
    cases d
    simp only at hf
    simp [step, Freeze_eq, hf]
  | Begin => simp only [step]; split <;> rfl
  | End => simp only [step]; split <;> rfl
  | Get _ => rfl
  | GetInto _ _ => rfl
  | Contains _ => rfl
  | GetLength => rfl
  | GetKeys => rfl
  | Frozen => rfl

theorem mutate_frozen_flag (d : Dictionary K V) (m : Mutation K V) :
    (d.mutate m).2.m_Frozen = d.m_Frozen := by
  cases hf : d.m_Frozen with
  | true =>
    cases m with
    | Set key value => simp [mutate, Set_frozen d hf, hf]
    | Remove key => simp [mutate, Remove_frozen d hf, hf]
    | Clear => simp [mutate, Clear_frozen d hf, hf]
  | false =>
    cases m with
    | Set key value => simp [mutate, Set_unfrozen d hf, hf]
    | Remove key =>
      simp only [mutate, Remove_unfrozen d hf]
      split <;> simp [hf]
    | Clear => simp [mutate, Clear_unfrozen d hf, hf]

theorem step_ordered (I2_DEBUG : Bool) (d : Dictionary K V) (hwf : Map.Ordered d.m_Data)
    (op : Op K V) : Map.Ordered (d.step I2_DEBUG op).2.m_Data := by
  cases hf : d.m_Frozen with
  | true => rw [step_frozen I2_DEBUG d hf op]; exact hwf
  | false =>
    cases op with
    | Set key value =>
      simp only [step, Set_unfrozen d hf]
      exact Map.ordered_assign hwf key value
    | Remove key =>
      simp only [step, Remove_unfrozen d hf]
      split
      · exact Map.ordered_erase hwf _
      · exact hwf
    | RemoveAt it =>
      simp only [step, RemoveAt, hf]
      split
      · exact hwf
      · simp only [Bool.false_eq_true, if_false]
        split
        · exact Map.ordered_erase hwf _
        · exact hwf
    | Clear =>
      simp only [step, Clear_unfrozen d hf]
      exact Map.ordered_nil
    | Freeze => simp only [step, Freeze_eq]; exact hwf
    | Begin => simp only [step]; split <;> exact hwf
    | End => simp only [step]; split <;> exact hwf
    | Get _ => exact hwf
    | GetInto _ _ => exact hwf
    | Contains _ => exact hwf
    | GetLength => exact hwf
    | GetKeys => exact hwf
    | Frozen => exact hwf

theorem stepAll_ordered (I2_DEBUG : Bool) (ops : List (Op K V)) :
    ∀ d : Dictionary K V, Map.Ordered d.m_Data →
      Map.Ordered (d.stepAll I2_DEBUG ops).m_Data := by
  induction ops with
  | nil => intro d hwf; exact hwf
  | cons op rest ih =>
    intro d hwf
    simp only [stepAll, List.foldl_cons]
    exact ih _ (step_ordered I2_DEBUG d hwf op)

theorem construct_ordered (c : Ctor K V) : Map.Ordered (construct c).m_Data := by
  cases c with
  | empty => exact Map.ordered_nil
  | ofData other => exact Map.ordered_foldl_insert other Map.ordered_nil
  | ofMovedData other => exact Map.ordered_foldl_insert other Map.ordered_nil
  | ofInitializerList init => exact Map.ordered_foldl_insert init Map.ordered_nil

theorem mutate_ordered (d : Dictionary K V) (hwf : Map.Ordered d.m_Data)
    (m : Mutation K V) : Map.Ordered (d.mutate m).2.m_Data := by
  cases m with
  | Set key value => exact step_ordered false d hwf (Op.Set key value)
  | Remove key => exact step_ordered false d hwf (Op.Remove key)
  | Clear => exact step_ordered false d hwf Op.Clear

/-- What `Contains` answers after a mutating call on an unfrozen object. -/
theorem Contains_mutate (d : Dictionary K V) (hwf : Map.Ordered d.m_Data)
    (hf : d.m_Frozen = false) (m : Mutation K V) (k : K) :
    (d.mutate m).2.Contains k = true ↔
      (∃ v, m = Mutation.Set k v) ∨
        (d.Contains k = true ∧ m ≠ Mutation.Remove k ∧ m ≠ Mutation.Clear) := by
  cases m with
  | Set key value =>
    simp only [mutate, Set_unfrozen d hf, Contains_eq, Map.lookup_assign]
    by_cases hk : k = key
    · subst hk; simp
    · have hk2 : ¬ key = k := fun e => hk e.symm
      simp [hk, hk2]
  | Remove key =>
    simp only [mutate, Remove_unfrozen d hf, Contains_eq]
    by_cases hk : k = key
    · subst hk
      cases hl : Map.lookup d.m_Data k with
      | none => simp [hl]
      | some v => simp [hl, Map.lookup_erase_find hwf]
    · have hk2 : ¬ key = k := fun e => hk e.symm
      cases hl : Map.lookup d.m_Data key with
      | none => simp [hk2]
      | some v => simp [hk, hk2, Map.lookup_erase_find hwf]
  | Clear => simp [mutate, Clear_unfrozen d hf, Contains_eq, Map.lookup]

theorem mutateAll_concat (d : Dictionary K V) (ms : List (Mutation K V))
    (m : Mutation K V) : d.mutateAll (ms ++ [m]) = ((d.mutateAll ms).mutate m).2 := by
  simp [mutateAll, List.foldl_append]

theorem mutateAll_invariant (ms : List (Mutation K V)) :
    ∀ d : Dictionary K V, Map.Ordered d.m_Data →
      Map.Ordered (d.mutateAll ms).m_Data ∧ (d.mutateAll ms).m_Frozen = d.m_Frozen := by
  induction ms with
  | nil => intro d hwf; exact ⟨hwf, rfl⟩
  | cons m rest ih =>
    intro d hwf
    simp only [mutateAll, List.foldl_cons]
    have h := ih _ (mutate_ordered d hwf m)
    exact ⟨h.1, h.2.trans (mutate_frozen_flag d m)⟩

/-- The length of an object with ordered data is the number of its distinct keys. -/
theorem GetLength_eq_card (d : Dictionary K V) (hwf : Map.Ordered d.m_Data) :
    d.GetLength = (d.m_Data.map Prod.fst).toFinset.card := by
  rw [List.toFinset_card_of_nodup (Map.Ordered.nodup hwf)]
  simp [GetLength]

/-- Replaying pairs through `Set` on an unfrozen object assigns them one after the
other. -/
theorem mutateAll_Sets (l : List (K × V)) :
    ∀ d : Dictionary K V, d.m_Frozen = false →
      d.mutateAll (l.map (fun kv => Mutation.Set kv.1 kv.2)) =
        Dictionary.mk (l.foldl (fun m kv => Map.assign m kv.1 kv.2) d.m_Data)
          d.m_Frozen d.lockCount := by
  induction l with
  | nil => intro d _; rfl
  | cons kv rest ih =>
    intro d hf
    simp only [mutateAll, List.map_cons, List.foldl_cons, mutate, Set_unfrozen d hf]
    exact ih _ hf

theorem replaySets_eq (l : List (K × V)) :
    (replaySets l : Dictionary K V) =
      Dictionary.mk (l.foldl (fun m kv => Map.assign m kv.1 kv.2) []) false 0 :=
  mutateAll_Sets l Dictionary.empty rfl

/-- With the lock held or the object frozen, the loop from `Begin()` to `End()` visits
the pairs of `m_Data` in their order. -/
theorem iterate_eq (I2_DEBUG : Bool) (d : Dictionary K V)
    (h : d.OwnsLock = true ∨ d.Frozen = true) :
    d.iterate I2_DEBUG = Result.returned d.m_Data := by
  have hassert : assertFails I2_DEBUG (d.Frozen || d.OwnsLock) = false := by
    rcases h with h | h <;> simp [assertFails, h]
  simp [iterate, Begin, End, hassert, pairsInRange, Map.begin, Map.end]

theorem lookup_ofData (l : List (K × V)) (k : K) :
    Map.lookup (Dictionary.ofData l : Dictionary K V).m_Data k = firstValueOf l k := by
  rw [Map.firstValueOf_eq_lookup]
  simp [Dictionary.ofData, Map.lookup_foldl_insert l [] k Map.ordered_nil, Map.lookup]

theorem lookup_replaySets (l : List (K × V)) (k : K) :
    Map.lookup (replaySets l : Dictionary K V).m_Data k = lastValueOf l k := by
  rw [lastValueOf, Map.firstValueOf_eq_lookup, replaySets_eq]
  simp only [Map.lookup_foldl_assign_last, Map.lookup]
  cases Map.lookup l.reverse k <;> simp

/-- The constructed and the replayed dictionary are the same object state exactly when
every key has the same first and last value in the sequence. -/
theorem ofData_eq_replaySets_iff (l : List (K × V)) :
    (Dictionary.ofData l : Dictionary K V) = replaySets l ↔
      ∀ k, firstValueOf l k = lastValueOf l k := by
  constructor
  · intro h k
    rw [← lookup_ofData, ← lookup_replaySets, h]
  · intro h
    have hdata : (Dictionary.ofData l : Dictionary K V).m_Data =
        (replaySets l : Dictionary K V).m_Data := by
      apply Map.ordered_ext
      · exact Map.ordered_foldl_insert l Map.ordered_nil
      · rw [replaySets_eq]
        exact Map.ordered_foldl_assign l [] Map.ordered_nil
      · intro k
        rw [lookup_ofData, lookup_replaySets, h]
    rw [replaySets_eq] at hdata ⊢
    simp only [Dictionary.ofData] at hdata ⊢
    rw [hdata]

/-- The calls of the values' `Clone`, as events. -/
theorem valueClones_spec (m : List (K × V)) (j : Nat) :
    ((m.map (fun kv => CloneEvent.valueClone kv.1 kv.2)).take j).countP
        CloneEvent.isLock = 0 ∧
      ((m.map (fun kv => CloneEvent.valueClone kv.1 kv.2)).take j).countP
        CloneEvent.isUnlock = 0 := by
  constructor <;>
  · rw [List.countP_eq_zero]
    intro e he
    obtain ⟨kv, _, rfl⟩ := List.mem_map.1 (List.mem_of_mem_take he)
    simp [CloneEvent.isLock, CloneEvent.isUnlock]

theorem CloneEvents_eq (d : Dictionary K V) :
    d.CloneEvents = CloneEvent.lockShared :: CloneEvent.lockShared ::
      CloneEvent.unlockShared ::
        (d.m_Data.map (fun kv => CloneEvent.valueClone kv.1 kv.2) ++
          [CloneEvent.unlockShared, CloneEvent.construct]) := by
  simp [CloneEvents]

end Dictionary

theorem SetAndNotRemovedSince_concat {K V : Type} (ms : List (Mutation K V))
    (m : Mutation K V) (k : K) :
    SetAndNotRemovedSince (ms ++ [m]) k ↔
      (∃ v, m = Mutation.Set k v) ∨
        (SetAndNotRemovedSince ms k ∧ m ≠ Mutation.Remove k ∧ m ≠ Mutation.Clear) := by
  constructor
  · rintro ⟨before, value, after, heq, hafter⟩
    rcases List.eq_nil_or_concat after with rfl | ⟨rest, x, rfl⟩
    · have h := List.append_inj_right' heq (by simp)
      exact Or.inl ⟨value, (List.cons.inj h).1⟩
    · have heq2 : ms ++ [m] = (before ++ Mutation.Set k value :: rest) ++ [x] := by
        simpa using heq
      have h1 := List.append_inj_left' heq2 (by simp)
      have h2 := List.append_inj_right' heq2 (by simp)
      have hm : m = x := (List.cons.inj h2).1
      refine Or.inr ⟨⟨before, value, rest, h1, ?_⟩, ?_⟩
      · intro y hy
        exact hafter y (by simp [hy])
      · rw [hm]
        exact hafter x (by simp)
  · rintro (⟨v, rfl⟩ | ⟨⟨before, value, after, rfl, hafter⟩, h1, h2⟩)
    · exact ⟨ms, v, [], rfl, by simp⟩
    · refine ⟨before, value, after ++ [m], by simp, ?_⟩
      intro y hy
      rcases List.mem_append.1 hy with hy | hy
      · exact hafter y hy
      · rw [List.mem_singleton.1 hy]
        exact ⟨h1, h2⟩

/-! ## Facts about the heap -/

namespace Heap

variable {K V : Type} [LinearOrder K] [Value V]

/-- A member call leaves the object at `p` as it is when it is made on another object,
or when the called function leaves that object as it is. -/
theorem call_frame {h : Heap K V} {p : Ptr} {d : Dictionary K V} (hp : h[p]? = some d)
    (q : Ptr) (f : Dictionary K V → Result Unit × Dictionary K V)
    (hf : q = p → (f d).2 = d) : (call h q f).2[p]? = some d := by
  unfold call
  cases hq : h[q]? with
  | none => simpa using hp
  | some e =>
    by_cases hqp : q = p
    · subst hqp
      rw [hp] at hq
      cases hq
      have hlt : q < h.length := (List.getElem?_eq_some_iff.1 hp).1
      simp [hf rfl, List.getElem?_set_self hlt]
    · simp [List.getElem?_set_ne hqp, hp]

theorem alloc_frame {h : Heap K V} {p : Ptr} {d : Dictionary K V} (hp : h[p]? = some d)
    (e : Dictionary K V) : (alloc h e).2[p]? = some d := by
  have hlt : p < h.length := (List.getElem?_eq_some_iff.1 hp).1
  simp [alloc, List.getElem?_append_left hlt, hp]

theorem set_eq_self {h : Heap K V} {p : Ptr} {d : Dictionary K V} (hp : h[p]? = some d) :
    h.set p d = h := by
  apply List.ext_getElem?
  intro i
  rw [List.getElem?_set]
  by_cases hi : p = i
  · subst hi
    have hlt : p < h.length := (List.getElem?_eq_some_iff.1 hp).1
    simp [hlt, hp]
  · simp [hi]

/-- The loop of `CopyTo` into another, unfrozen object returns, and assigns the pairs
one after the other to that object's data. -/
theorem CopyToLoop_unfrozen {this dest : Ptr} (hne : dest ≠ this) (l : List (K × V)) :
    ∀ (h : Heap K V) (e : Dictionary K V), h[dest]? = some e → e.m_Frozen = false →
      CopyToLoop this dest h l =
        (.returned (), h.set dest
          { e with m_Data := l.foldl (fun m kv => Map.assign m kv.1 kv.2) e.m_Data }) := by
  induction l with
  | nil =>
    intro h e he _
    simp [CopyToLoop, set_eq_self he]
  | cons kv rest ih =>
    intro h e he hf
    have hlt : dest < h.length := (List.getElem?_eq_some_iff.1 he).1
    have hset : Heap.Set h dest kv.1 kv.2 =
        (.returned (), h.set dest { e with m_Data := Map.assign e.m_Data kv.1 kv.2 }) := by
      simp [Heap.Set, call, he, Dictionary.Set_unfrozen e hf]
    unfold CopyToLoop
    simp only [hne, if_false, hset]
    rw [ih (h.set dest { e with m_Data := Map.assign e.m_Data kv.1 kv.2 })
      { e with m_Data := Map.assign e.m_Data kv.1 kv.2 }
      (List.getElem?_set_self hlt) hf]
    simp [List.set_set]

/-- Member calls on one object leave every other object as it is. -/
theorem run_member_frame (I2_DEBUG : Bool) {p q : Ptr} {d : Dictionary K V} (hne : q ≠ p)
    (ops : List (Op K V)) :
    ∀ h : Heap K V, h[p]? = some d →
      (run I2_DEBUG h (ops.map (Call.member q)))[p]? = some d := by
  induction ops with
  | nil => intro h hp; simpa [run] using hp
  | cons op rest ih =>
    intro h hp
    simp only [run, List.map_cons, List.foldl_cons]
    exact ih _ (call_frame hp q _ (fun e => absurd e hne))

/-- The loop of `CopyTo` leaves a frozen object as it is, whatever it copies where. -/
theorem CopyToLoop_frozen {p : Ptr} {d : Dictionary K V} (hf : d.m_Frozen = true)
    (this dest : Ptr) (l : List (K × V)) :
    ∀ h : Heap K V, h[p]? = some d → (CopyToLoop this dest h l).2[p]? = some d := by
  induction l with
  | nil => intro h hp; simpa [CopyToLoop] using hp
  | cons kv rest ih =>
    intro h hp
    unfold CopyToLoop
    by_cases hd : dest = this
    · simpa [hd] using hp
    · simp only [hd, if_false]
      have hstep : (Heap.Set h dest kv.1 kv.2).2[p]? = some d :=
        call_frame hp dest _ (fun _ => by simp [Dictionary.Set_frozen d hf])
      split
      · next h1 heq =>
        rw [heq] at hstep
        exact ih h1 hstep
      · next r h1 _ heq =>
        rw [heq] at hstep
        exact hstep

/-- No call changes a frozen object. -/
theorem heap_step_frozen (I2_DEBUG : Bool) {h : Heap K V} {p : Ptr} {d : Dictionary K V}
    (hp : h[p]? = some d) (hf : d.m_Frozen = true) (c : Call K V) :
    (step I2_DEBUG h c)[p]? = some d := by
  cases c with
  | member q op =>
    exact call_frame hp q _ (fun _ => Dictionary.step_frozen I2_DEBUG d hf op)
  | CopyTo this dest =>
    simp only [step, CopyTo]
    cases h[this]? with
    | none => simpa using hp
    | some src => exact CopyToLoop_frozen hf this dest src.m_Data h hp
  | ShallowClone this =>
    simp only [step, ShallowClone]
    cases h[this]? with
    | none => simpa using hp
    | some src =>
      have h1 := alloc_frame hp (Dictionary.empty : Dictionary K V)
      simp only [CopyTo]
      cases hsrc : (alloc h (Dictionary.empty : Dictionary K V)).2[this]? with
      | none => simpa using h1
      | some src1 =>
        have h2 := CopyToLoop_frozen hf this (alloc h (Dictionary.empty : Dictionary K V)).1
          src1.m_Data _ h1
        simp only
        split <;> simp_all
  | Clone this =>
    simp only [step, Clone]
    cases h[this]? with
    | none => simpa using hp
    | some src => exact alloc_frame hp _
  | construct c => exact alloc_frame hp _

theorem run_frozen (I2_DEBUG : Bool) {p : Ptr} {d : Dictionary K V}
    (hf : d.m_Frozen = true) (calls : List (Call K V)) :
    ∀ h : Heap K V, h[p]? = some d → (run I2_DEBUG h calls)[p]? = some d := by
  induction calls with
  | nil => intro h hp; simpa [run] using hp
  | cons c rest ih =>
    intro h hp
    simp only [run, List.foldl_cons]
    exact ih _ (heap_step_frozen I2_DEBUG hp hf c)

/-- The loop of `CopyTo` into a frozen object leaves the whole heap as it is. -/
theorem CopyToLoop_frozen_heap {h : Heap K V} {dest : Ptr} {dst : Dictionary K V}
    (hdest : h[dest]? = some dst) (hf : dst.m_Frozen = true) (this : Ptr)
    (l : List (K × V)) : (CopyToLoop this dest h l).2 = h := by
  cases l with
  | nil => simp [CopyToLoop]
  | cons kv rest =>
    unfold CopyToLoop
    by_cases hd : dest = this
    · simp [hd]
    · simp [hd, Heap.Set, call, hdest, Dictionary.Set_frozen dst hf, set_eq_self hdest]

/-- The loop of `CopyTo` into a frozen object other than the source throws at the first
pair. -/
theorem CopyToLoop_frozen_throws {h : Heap K V} {this dest : Ptr} {dst : Dictionary K V}
    (hdest : h[dest]? = some dst) (hf : dst.m_Frozen = true) (hne : dest ≠ this)
    (kv : K × V) (rest : List (K × V)) :
    (CopyToLoop this dest h (kv :: rest)).1 =
      Result.threw "Value in dictionary must not be modified." := by
  unfold CopyToLoop
  simp [hne, Heap.Set, call, hdest, Dictionary.Set_frozen dst hf]

end Heap

/-! ## The specification's claims -/

section Claims

variable {K V : Type} [LinearOrder K] [Value V]

/-- C1: on a frozen dictionary each of `Set(key, value)`, `Remove(key)` and `Clear()`
throws `std::invalid_argument` (the MutationOnFrozen error), whether or not the key is
present or the dictionary empty, and leaves the object as it was: `GetLength()`,
`Get(k)` for every `k`, `GetKeys()` and the frozen flag are those from before. -/
theorem frozen_mutation_fails (d : Dictionary K V) (hf : d.Frozen = true) (key : K)
    (value : V) :
    ∀ r ∈ [d.Set key value, d.Remove key, d.Clear],
      (∃ what, r.1 = Result.threw what) ∧ r.2 = d ∧ r.2.GetLength = d.GetLength ∧
        (∀ k, r.2.Get k = d.Get k) ∧ r.2.GetKeys = d.GetKeys ∧ r.2.Frozen = d.Frozen := by
  have hf0 : d.m_Frozen = true := hf
  intro r hr
  simp only [List.mem_cons, List.mem_singleton, List.not_mem_nil, or_false] at hr
  rcases hr with hr | hr | hr
  · rw [hr, Dictionary.Set_frozen d hf0]
    exact ⟨⟨_, rfl⟩, rfl, rfl, fun _ => rfl, rfl, rfl⟩
  · rw [hr, Dictionary.Remove_frozen d hf0]
    exact ⟨⟨_, rfl⟩, rfl, rfl, fun _ => rfl, rfl, rfl⟩
  · rw [hr, Dictionary.Clear_frozen d hf0]
    exact ⟨⟨_, rfl⟩, rfl, rfl, fun _ => rfl, rfl, rfl⟩

/-- C1 on the spec's example scenario: after `Set("x", 10)` and `Freeze()`, the calls
`Set("x", 20)`, `Remove("x")` and `Clear()` throw and change nothing. -/
theorem frozen_mutation_fails_witness :
    scenarioFrozen.Frozen = true ∧
      ∀ r ∈ [scenarioFrozen.Set "x" (some 20), scenarioFrozen.Remove "x",
          scenarioFrozen.Clear],
        (∃ what, r.1 = Result.threw what) ∧ r.2 = scenarioFrozen ∧
          r.2.GetLength = scenarioFrozen.GetLength ∧
          (∀ k, r.2.Get k = scenarioFrozen.Get k) ∧
          r.2.GetKeys = scenarioFrozen.GetKeys ∧ r.2.Frozen = scenarioFrozen.Frozen :=
  ⟨rfl, frozen_mutation_fails scenarioFrozen rfl "x" (some 20)⟩

/-- C2: freeze is one-way.  Take any heap, any dictionary `d` in it at address `p`, and
call `Freeze()` on it.  After every prefix of every sequence of calls that follows
(member calls on any object: `Set`, `Remove` by key or by iterator, `Clear`, `Freeze`
and the reading calls; `CopyTo` between any two objects, also into `p`; `ShallowClone`,
`Clone` and constructions), the object at `p` is frozen and stores the pairs `d` stored
when it was frozen. -/
theorem freeze_is_one_way (I2_DEBUG : Bool) (h : Heap K V) (p : Ptr) (d : Dictionary K V)
    (hp : h[p]? = some d) (calls : List (Call K V)) (n : Nat) :
    ∃ d1, (Heap.run I2_DEBUG (Heap.call h p Dictionary.Freeze).2 (calls.take n))[p]?
        = some d1 ∧ d1.Frozen = true ∧ d1.m_Data = d.m_Data := by
  refine ⟨{ d with m_Frozen := true }, ?_, rfl, rfl⟩
  apply Heap.run_frozen I2_DEBUG rfl
  have hlt : p < h.length := (List.getElem?_eq_some_iff.1 hp).1
  simp [Heap.call, hp, Dictionary.Freeze_eq, List.getElem?_set_self hlt]

/-- C2 on a concrete heap: the object at address 0 is frozen, then written to, copied
into (from the other object and from itself), erased from and cleared. -/
theorem freeze_is_one_way_witness :
    sampleHeap[0]? = some sampleDict ∧
      ∃ d1, (Heap.run true (Heap.call sampleHeap 0 Dictionary.Freeze).2
          ([Call.member 0 (Op.Set 7 (some 70)), Call.CopyTo 1 0, Call.CopyTo 0 0,
            Call.member 0 (Op.RemoveAt 0), Call.member 0 Op.Clear,
            Call.member 0 (Op.Remove 2)].take 6))[0]?
        = some d1 ∧ d1.Frozen = true ∧ d1.m_Data = sampleDict.m_Data :=
  ⟨rfl, freeze_is_one_way true sampleHeap 0 sampleDict rfl _ 6⟩

/-- C3: on an unfrozen dictionary `Set(k, v)` returns and inserts or overwrites:
afterwards `Get(k)` is `v`, `Get(k1)` is what it was for every other key `k1`, and
`GetLength()` is one more than before when `k` was absent and the same when it was
present. -/
theorem Set_inserts_or_overwrites (d : Dictionary K V) (hwf : Map.Ordered d.m_Data)
    (hnf : d.Frozen = false) (k : K) (v : V) :
    (d.Set k v).1 = Result.returned () ∧
      (d.Set k v).2.Get k = v ∧
      (∀ k1, k1 ≠ k → (d.Set k v).2.Get k1 = d.Get k1) ∧
      (d.Contains k = false → (d.Set k v).2.GetLength = d.GetLength + 1) ∧
      (d.Contains k = true → (d.Set k v).2.GetLength = d.GetLength) := by
  have hnf0 : d.m_Frozen = false := hnf
  rw [Dictionary.Set_unfrozen d hnf0]
  refine ⟨rfl, ?_, ?_, ?_, ?_⟩
  · simp [Dictionary.Get_eq, Map.lookup_assign]
  · intro k1 hk1
    simp [Dictionary.Get_eq, Map.lookup_assign, hk1]
  · intro hc
    rw [Dictionary.Contains_eq] at hc
    simp [Dictionary.GetLength, Map.length_assign hwf, hc]
  · intro hc
    rw [Dictionary.Contains_eq] at hc
    simp [Dictionary.GetLength, Map.length_assign hwf, hc]

/-- C3 on `sampleDict` (keys 2 and 5): `Set(3, 30)`. -/
theorem Set_inserts_or_overwrites_witness :
    Map.Ordered sampleDict.m_Data ∧ sampleDict.Frozen = false ∧
      ((sampleDict.Set 3 (some 30)).1 = Result.returned () ∧
        (sampleDict.Set 3 (some 30)).2.Get 3 = some 30 ∧
        (∀ k1, k1 ≠ 3 → (sampleDict.Set 3 (some 30)).2.Get k1 = sampleDict.Get k1) ∧
        (sampleDict.Contains 3 = false →
          (sampleDict.Set 3 (some 30)).2.GetLength = sampleDict.GetLength + 1) ∧
        (sampleDict.Contains 3 = true →
          (sampleDict.Set 3 (some 30)).2.GetLength = sampleDict.GetLength)) :=
  ⟨by decide, rfl, Set_inserts_or_overwrites sampleDict (by decide) rfl 3 (some 30)⟩

/-- C6: the two forms of `Get` never fail (both are total) and agree with `Contains`,
frozen or not.  When `k` is present, `Get(k)` returns the stored value (the one value
paired with `k` in `m_Data`) and `Get(k, &out)` returns true and writes that value to
`out`; when `k` is absent, `Get(k)` returns `Empty` and `Get(k, &out)` returns false and
leaves `out` as it was; `Get(k, &out)` returns true exactly when `Contains(k)`. -/
theorem Get_forms_agree (d : Dictionary K V) (hwf : Map.Ordered d.m_Data) (k : K)
    (out : V) :
    (d.Contains k = true →
      ∃ v, (k, v) ∈ d.m_Data ∧ (∀ w, (k, w) ∈ d.m_Data → w = v) ∧ d.Get k = v ∧
        d.GetInto k out = (true, v)) ∧
    (d.Contains k = false →
      (∀ w, (k, w) ∉ d.m_Data) ∧ d.Get k = Value.Empty ∧ d.GetInto k out = (false, out)) ∧
    ((d.GetInto k out).1 = true ↔ d.Contains k = true) := by
  rw [Dictionary.Contains_eq, Dictionary.Get_eq, Dictionary.GetInto_eq]
  cases hl : Map.lookup d.m_Data k with
  | none =>
    refine ⟨by simp, fun _ => ⟨?_, by simp, by simp⟩, by simp⟩
    intro w hw
    rw [← Map.lookup_eq_some_iff hwf, hl] at hw
    cases hw
  | some v =>
    refine ⟨fun _ => ⟨v, ?_, ?_, by simp, by simp⟩, by simp, by simp⟩
    · exact (Map.lookup_eq_some_iff hwf k v).1 hl
    · intro w hw
      rw [← Map.lookup_eq_some_iff hwf, hl] at hw
      exact (Option.some.inj hw).symm

/-- C6 on `sampleDict` (keys 2 and 5) and the present key 5. -/
theorem Get_forms_agree_witness :
    Map.Ordered sampleDict.m_Data ∧
      ((sampleDict.Contains 5 = true →
        ∃ v, (5, v) ∈ sampleDict.m_Data ∧ (∀ w, (5, w) ∈ sampleDict.m_Data → w = v) ∧
          sampleDict.Get 5 = v ∧ sampleDict.GetInto 5 (some 1) = (true, v)) ∧
      (sampleDict.Contains 5 = false →
        (∀ w, (5, w) ∉ sampleDict.m_Data) ∧ sampleDict.Get 5 = Value.Empty ∧
          sampleDict.GetInto 5 (some 1) = (false, some 1)) ∧
      ((sampleDict.GetInto 5 (some 1)).1 = true ↔ sampleDict.Contains 5 = true)) :=
  ⟨by decide, Get_forms_agree sampleDict (by decide) 5 (some 1)⟩

/-- C7: on an unfrozen dictionary `Remove(k)` returns.  When `k` is absent the object
stays as it is; when `k` is present exactly that entry goes: afterwards `Contains(k)` is
false, `GetLength()` is one less, and `Get(k1)` is what it was for every other key. -/
theorem Remove_removes_exactly (d : Dictionary K V) (hwf : Map.Ordered d.m_Data)
    (hnf : d.Frozen = false) (k : K) :
    (d.Remove k).1 = Result.returned () ∧
      (d.Contains k = false → (d.Remove k).2 = d) ∧
      (d.Contains k = true →
        (d.Remove k).2.Contains k = false ∧
          (d.Remove k).2.GetLength + 1 = d.GetLength ∧
          ∀ k1, k1 ≠ k → (d.Remove k).2.Get k1 = d.Get k1) := by
  have hnf0 : d.m_Frozen = false := hnf
  rw [Dictionary.Remove_unfrozen d hnf0, Dictionary.Contains_eq]
  refine ⟨rfl, ?_, ?_⟩
  · intro hc
    simp [hc]
  · intro hc
    simp only [hc, if_true]
    refine ⟨?_, ?_, ?_⟩
    · simp [Dictionary.Contains_eq, Map.lookup_erase_find hwf]
    · have hlt : Map.find d.m_Data k < d.m_Data.length := by
        refine lt_of_le_of_ne (Map.find_le_length _ _) ?_
        intro e
        rw [Map.find_eq_length_iff] at e
        simp [e] at hc
      simp only [Dictionary.GetLength, Map.length_erase _ _ hlt]
      omega
    · intro k1 hk1
      simp [Dictionary.Get_eq, Map.lookup_erase_find hwf, hk1]

/-- C7 on `sampleDict` (keys 2 and 5): `Remove(2)`. -/
theorem Remove_removes_exactly_witness :
    Map.Ordered sampleDict.m_Data ∧ sampleDict.Frozen = false ∧
      ((sampleDict.Remove 2).1 = Result.returned () ∧
        (sampleDict.Contains 2 = false → (sampleDict.Remove 2).2 = sampleDict) ∧
        (sampleDict.Contains 2 = true →
          (sampleDict.Remove 2).2.Contains 2 = false ∧
            (sampleDict.Remove 2).2.GetLength + 1 = sampleDict.GetLength ∧
            ∀ k1, k1 ≠ 2 → (sampleDict.Remove 2).2.Get k1 = sampleDict.Get k1)) :=
  ⟨by decide, rfl, Remove_removes_exactly sampleDict (by decide) rfl 2⟩

/-- C4: after any sequence of `Set`, `Remove(key)` and `Clear` calls on an initially
empty, unfrozen dictionary, `GetLength()` is the number of distinct keys present (the
size of the set of keys `Contains` accepts), and `Contains(k)` is true exactly when `k`
was set at some point of the sequence and not removed or cleared afterwards. -/
theorem length_and_contains_follow_history (ms : List (Mutation K V)) :
    (∃ s : Finset K,
      (∀ k, k ∈ s ↔ ((Dictionary.empty : Dictionary K V).mutateAll ms).Contains k = true) ∧
        ((Dictionary.empty : Dictionary K V).mutateAll ms).GetLength = s.card) ∧
    ∀ k, ((Dictionary.empty : Dictionary K V).mutateAll ms).Contains k = true ↔
      SetAndNotRemovedSince ms k := by
  have hinv := Dictionary.mutateAll_invariant ms (Dictionary.empty : Dictionary K V)
    Map.ordered_nil
  constructor
  · refine ⟨(((Dictionary.empty : Dictionary K V).mutateAll ms).m_Data.map
      Prod.fst).toFinset, ?_, Dictionary.GetLength_eq_card _ hinv.1⟩
    intro k
    rw [Dictionary.Contains_eq, Map.lookup_isSome_iff, List.mem_toFinset]
  · induction ms using List.reverseRecOn with
    | nil =>
      intro k
      simp [Dictionary.mutateAll, Dictionary.empty, Dictionary.Contains_eq, Map.lookup,
        SetAndNotRemovedSince]
    | append_singleton ms m ih =>
      intro k
      have hpre := Dictionary.mutateAll_invariant ms (Dictionary.empty : Dictionary K V)
        Map.ordered_nil
      rw [Dictionary.mutateAll_concat, SetAndNotRemovedSince_concat,
        Dictionary.Contains_mutate _ hpre.1 hpre.2, ih hpre k]

/-- C5: whatever constructor built the dictionary and whatever member calls followed
(`Set`, `Remove` by key or by iterator, `Clear`, and the others), in any order,
`GetKeys()` returns exactly the keys present, each once, in strictly ascending key
order; and `Set("b", 1); Set("a", 2)` on an empty dictionary gives `["a", "b"]`. -/
theorem GetKeys_strictly_ascending (I2_DEBUG : Bool) (c : Ctor K V) (ops : List (Op K V)) :
    ((∀ k, k ∈ ((Dictionary.construct c).stepAll I2_DEBUG ops).GetKeys ↔
        ((Dictionary.construct c).stepAll I2_DEBUG ops).Contains k = true) ∧
      ((Dictionary.construct c).stepAll I2_DEBUG ops).GetKeys.Nodup ∧
      ((Dictionary.construct c).stepAll I2_DEBUG ops).GetKeys.Sorted (· < ·)) ∧
    ((Dictionary.empty : Dictionary String (Option Nat)).stepAll I2_DEBUG
      [Op.Set "b" (some 1), Op.Set "a" (some 2)]).GetKeys = ["a", "b"] := by
  have hwf := Dictionary.stepAll_ordered I2_DEBUG ops _ (Dictionary.construct_ordered c)
  refine ⟨⟨?_, ?_, ?_⟩, ?_⟩
  · intro k
    rw [Dictionary.GetKeys_eq, Dictionary.Contains_eq, Map.lookup_isSome_iff]
  · rw [Dictionary.GetKeys_eq]
    exact Map.Ordered.nodup hwf
  · rw [Dictionary.GetKeys_eq]
    exact hwf
  · have hab : ("a" : String) < "b" := by
      rw [String.lt_iff_toList_lt]
      decide
    simp [Dictionary.stepAll, Dictionary.step, Dictionary.Set, Dictionary.Lock,
      Dictionary.Unlock, Dictionary.empty, Dictionary.GetKeys, Map.assign, hab]

/-- C8: for every dictionary, frozen or not, `ShallowClone()` returns a pointer to a new
object (no object was at that address before) that is unfrozen and has the source's keys
and values: the same `GetKeys()` and the same `Get(k)` for every `k`.  The source is as
it was, and it stays so under any later member calls on the clone (`Set`, `Remove`,
`Clear` and the others). -/
theorem ShallowClone_independent (I2_DEBUG : Bool) (h : Heap K V) (this : Ptr)
    (src : Dictionary K V) (hthis : h[this]? = some src) (hsrc : Map.Ordered src.m_Data) :
    ∃ clone c, (h.ShallowClone this).1 = Result.returned clone ∧
      h[clone]? = none ∧ (h.ShallowClone this).2[clone]? = some c ∧
      c.Frozen = false ∧ c.GetKeys = src.GetKeys ∧ (∀ k, c.Get k = src.Get k) ∧
      (h.ShallowClone this).2[this]? = some src ∧
      ∀ ops : List (Op K V),
        (Heap.run I2_DEBUG (h.ShallowClone this).2 (ops.map (Call.member clone)))[this]?
          = some src := by
  have hlt : this < h.length := (List.getElem?_eq_some_iff.1 hthis).1
  have hne : h.length ≠ this := Nat.ne_of_gt hlt
  have h1 : (h ++ [(Dictionary.empty : Dictionary K V)])[this]? = some src := by
    rw [List.getElem?_append_left hlt, hthis]
  have h2 : (h ++ [(Dictionary.empty : Dictionary K V)])[h.length]? =
      some Dictionary.empty := List.getElem?_concat_length h _
  have hloop := Heap.CopyToLoop_unfrozen hne src.m_Data
    (h ++ [(Dictionary.empty : Dictionary K V)]) Dictionary.empty h2 rfl
  have hdata : src.m_Data.foldl (fun m kv => Map.assign m kv.1 kv.2)
      (Dictionary.empty : Dictionary K V).m_Data = src.m_Data := by
    have := Map.foldl_assign_of_ordered src.m_Data [] (by simpa using hsrc)
    simpa [Dictionary.empty] using this
  rw [hdata] at hloop
  have hres : h.ShallowClone this = (Result.returned h.length,
      (h ++ [(Dictionary.empty : Dictionary K V)]).set h.length
        { (Dictionary.empty : Dictionary K V) with m_Data := src.m_Data }) := by
    simp only [Heap.ShallowClone, hthis, Heap.alloc, Heap.CopyTo, h1, hloop]
  have hlen : h.length < (h ++ [(Dictionary.empty : Dictionary K V)]).length := by simp
  have hsrc1 : (h.ShallowClone this).2[this]? = some src := by
    rw [hres]
    simp only
    rw [List.getElem?_set_ne hne, h1]
  refine ⟨h.length, { (Dictionary.empty : Dictionary K V) with m_Data := src.m_Data },
    ?_, ?_, ?_, rfl, ?_, ?_, hsrc1, ?_⟩
  · rw [hres]
  · exact List.getElem?_eq_none (le_refl _)
  · rw [hres]
    exact List.getElem?_set_self hlen
  · simp [Dictionary.GetKeys_eq]
  · intro k
    simp [Dictionary.Get_eq]
  · intro ops
    exact Heap.run_member_frame I2_DEBUG hne ops _ hsrc1

/-- C8 on `sampleHeap`: the object at address 0 is cloned to the fresh address 2. -/
theorem ShallowClone_independent_witness :
    sampleHeap[0]? = some sampleDict ∧ Map.Ordered sampleDict.m_Data ∧
      ∃ clone c, (sampleHeap.ShallowClone 0).1 = Result.returned clone ∧
        sampleHeap[clone]? = none ∧ (sampleHeap.ShallowClone 0).2[clone]? = some c ∧
        c.Frozen = false ∧ c.GetKeys = sampleDict.GetKeys ∧
        (∀ k, c.Get k = sampleDict.Get k) ∧
        (sampleHeap.ShallowClone 0).2[0]? = some sampleDict ∧
        ∀ ops : List (Op Nat (Option Nat)),
          (Heap.run true (sampleHeap.ShallowClone 0).2 (ops.map (Call.member clone)))[0]?
            = some sampleDict :=
  ⟨rfl, by decide, ShallowClone_independent true sampleHeap 0 sampleDict rfl (by decide)⟩

/-- C9: for every dictionary, frozen or not, `Clone()` returns a pointer to a new,
unfrozen object with exactly the source's keys, in which every key maps to the result of
the value's own `Clone` applied to the source's value for that key.  Every object that
existed before, the source among them, is as it was. -/
theorem Clone_clones_every_value (h : Heap K V) (this : Ptr) (src : Dictionary K V)
    (hthis : h[this]? = some src) (hsrc : Map.Ordered src.m_Data) :
    ∃ clone c, (h.Clone this).1 = Result.returned clone ∧
      h[clone]? = none ∧ (h.Clone this).2[clone]? = some c ∧
      c.Frozen = false ∧ c.GetKeys = src.GetKeys ∧
      (∀ k, c.Contains k = src.Contains k) ∧
      (∀ k, src.Contains k = true → c.Get k = Value.Clone (src.Get k)) ∧
      (h.Clone this).2[this]? = some src ∧
      ∀ (q : Ptr) (e : Dictionary K V), h[q]? = some e → (h.Clone this).2[q]? = some e := by
  have hdict : src.m_Data.foldl (fun dict kv => dict ++ [(kv.1, Value.Clone kv.2)]) [] =
      src.m_Data.map (fun kv => (kv.1, Value.Clone kv.2)) := by
    simpa using Map.foldl_push_clone Value.Clone src.m_Data []
  have hord := Map.ordered_map_value (Value.Clone : V → V) hsrc
  have hins : (src.m_Data.map (fun kv => (kv.1, Value.Clone kv.2))).foldl Map.insert [] =
      src.m_Data.map (fun kv => (kv.1, Value.Clone kv.2)) := by
    simpa using Map.foldl_insert_of_ordered _ [] (by simpa using hord)
  have hres : h.Clone this = (Result.returned h.length,
      h ++ [({ m_Data := src.m_Data.map (fun kv => (kv.1, Value.Clone kv.2)),
               m_Frozen := false, lockCount := 0 } : Dictionary K V)]) := by
    simp only [Heap.Clone, hthis, Heap.alloc, hdict, Dictionary.ofMovedData, hins]
  have hframe : ∀ (q : Ptr) (e : Dictionary K V),
      h[q]? = some e → (h.Clone this).2[q]? = some e := by
    intro q e hq
    rw [hres]
    exact Heap.alloc_frame hq _
  refine ⟨h.length,
    Dictionary.mk (src.m_Data.map (fun kv => (kv.1, Value.Clone kv.2))) false 0,
    ?_, ?_, ?_, rfl, ?_, ?_, ?_, hframe this src hthis, hframe⟩
  · rw [hres]
  · exact List.getElem?_eq_none (le_refl _)
  · rw [hres]
    exact List.getElem?_concat_length h _
  · simp [Dictionary.GetKeys_eq, List.map_map, Function.comp_def]
  · intro k
    simp only [Dictionary.Contains_eq, Map.lookup_map_value]
    cases Map.lookup src.m_Data k <;> rfl
  · intro k hk
    rw [Dictionary.Contains_eq] at hk
    simp only [Dictionary.Get_eq, Map.lookup_map_value]
    cases hl : Map.lookup src.m_Data k with
    | none => simp [hl] at hk
    | some v => rfl

/-- C9 on `sampleHeap`: the object at address 0 is cloned to the fresh address 2. -/
theorem Clone_clones_every_value_witness :
    sampleHeap[0]? = some sampleDict ∧ Map.Ordered sampleDict.m_Data ∧
      ∃ clone c, (sampleHeap.Clone 0).1 = Result.returned clone ∧
        sampleHeap[clone]? = none ∧ (sampleHeap.Clone 0).2[clone]? = some c ∧
        c.Frozen = false ∧ c.GetKeys = sampleDict.GetKeys ∧
        (∀ k, c.Contains k = sampleDict.Contains k) ∧
        (∀ k, sampleDict.Contains k = true → c.Get k = Value.Clone (sampleDict.Get k)) ∧
        (sampleHeap.Clone 0).2[0]? = some sampleDict ∧
        ∀ (q : Ptr) (e : Dictionary Nat (Option Nat)),
          sampleHeap[q]? = some e → (sampleHeap.Clone 0).2[q]? = some e :=
  ⟨rfl, by decide, Clone_clones_every_value sampleHeap 0 sampleDict rfl (by decide)⟩

/-- C10: for every source dictionary and every unfrozen destination that is another
object, `src.CopyTo(dest)` returns, having copied every pair through `Set`: afterwards
`dest.Get(k)` is `src.Get(k)` for every key of the source and what it was for every
other key, the destination's length is the size of the union of the two key sets, and
the source and every object other than the destination are as they were. -/
theorem CopyTo_copies_every_pair (h : Heap K V) (this dest : Ptr)
    (src dst : Dictionary K V) (hthis : h[this]? = some src) (hdest : h[dest]? = some dst)
    (hne : dest ≠ this) (hsrc : Map.Ordered src.m_Data) (hdst : Map.Ordered dst.m_Data)
    (hnf : dst.Frozen = false) :
    (h.CopyTo this dest).1 = Result.returned () ∧
      (∃ dst1, (h.CopyTo this dest).2[dest]? = some dst1 ∧
        (∀ k, src.Contains k = true → dst1.Get k = src.Get k) ∧
        (∀ k, src.Contains k = false → dst1.Get k = dst.Get k) ∧
        dst1.GetLength = (dst.GetKeys.toFinset ∪ src.GetKeys.toFinset).card) ∧
      (h.CopyTo this dest).2[this]? = some src ∧
      ∀ q : Ptr, q ≠ dest → (h.CopyTo this dest).2[q]? = h[q]? := by
  have hlt : dest < h.length := (List.getElem?_eq_some_iff.1 hdest).1
  have hres : h.CopyTo this dest = (Result.returned (), h.set dest
      (Dictionary.mk (src.m_Data.foldl (fun m kv => Map.assign m kv.1 kv.2) dst.m_Data)
        dst.m_Frozen dst.lockCount)) := by
    simp only [Heap.CopyTo, hthis]
    exact Heap.CopyToLoop_unfrozen hne src.m_Data h dst hdest hnf
  have hframe : ∀ q : Ptr, q ≠ dest → (h.CopyTo this dest).2[q]? = h[q]? := by
    intro q hq
    rw [hres]
    exact List.getElem?_set_ne (fun e => hq e.symm)
  refine ⟨by rw [hres], ⟨_, by rw [hres]; exact List.getElem?_set_self hlt, ?_, ?_, ?_⟩,
    by rw [hframe this (fun e => hne e.symm), hthis], hframe⟩
  · intro k hk
    rw [Dictionary.Contains_eq] at hk
    simp [Dictionary.Get_eq, Map.lookup_foldl_assign hsrc, hk]
  · intro k hk
    rw [Dictionary.Contains_eq] at hk
    simp [Dictionary.Get_eq, Map.lookup_foldl_assign hsrc, hk]
  · rw [Dictionary.GetLength_eq_card _ (Map.ordered_foldl_assign src.m_Data _ hdst)]
    congr 1
    ext k
    simp only [List.mem_toFinset, Finset.mem_union, Dictionary.GetKeys_eq,
      ← Map.lookup_isSome_iff, Map.lookup_foldl_assign hsrc]
    cases Map.lookup src.m_Data k <;> simp

/-- C10 on `sampleHeap`: the object at address 1 (keys 1 and 2) is copied into the
object at address 0 (keys 2 and 5). -/
theorem CopyTo_copies_every_pair_witness :
    sampleHeap[1]? = some (Dictionary.mk [(1, some 1), (2, some 2)] false 1) ∧
      sampleHeap[0]? = some sampleDict ∧ (0 : Ptr) ≠ 1 ∧
      Map.Ordered [((1 : Nat), some 1), (2, some 2)] ∧ Map.Ordered sampleDict.m_Data ∧
      sampleDict.Frozen = false ∧
      ((sampleHeap.CopyTo 1 0).1 = Result.returned () ∧
        (∃ dst1, (sampleHeap.CopyTo 1 0).2[0]? = some dst1 ∧
          (∀ k, (Dictionary.mk [(1, some 1), (2, some 2)] false 1).Contains k = true →
            dst1.Get k = (Dictionary.mk [(1, some 1), (2, some 2)] false 1).Get k) ∧
          (∀ k, (Dictionary.mk [(1, some 1), (2, some 2)] false 1).Contains k = false →
            dst1.Get k = sampleDict.Get k) ∧
          dst1.GetLength = (sampleDict.GetKeys.toFinset ∪
            (Dictionary.mk [(1, some 1), (2, some 2)] false 1).GetKeys.toFinset).card) ∧
        (sampleHeap.CopyTo 1 0).2[1]? =
          some (Dictionary.mk [(1, some 1), (2, some 2)] false 1) ∧
        ∀ q : Ptr, q ≠ 0 → (sampleHeap.CopyTo 1 0).2[q]? = sampleHeap[q]?) :=
  ⟨rfl, rfl, by decide, by decide, by decide, rfl,
    CopyTo_copies_every_pair sampleHeap 1 0 _ sampleDict rfl rfl (by decide) (by decide)
      (by decide) rfl⟩

/-- C11, as stated, fails: copying the empty dictionary at address 0 of `frozenHeap`
into the frozen dictionary at address 1 returns; nothing is thrown. -/
theorem CopyTo_empty_into_frozen_returns :
    frozenHeap[0]? = some Dictionary.empty ∧ frozenHeap[1]? = some sampleFrozen ∧
      sampleFrozen.Frozen = true ∧
      (frozenHeap.CopyTo 0 1).1 = Result.returned () ∧
      ¬ ∃ what, (frozenHeap.CopyTo 0 1).1 = Result.threw what := by
  refine ⟨rfl, rfl, rfl, rfl, ?_⟩
  rintro ⟨what, hw⟩
  have hr : (frozenHeap.CopyTo 0 1).1 = Result.returned () := rfl
  rw [hr] at hw
  cases hw

/-- C11, amended: for every frozen destination, `src.CopyTo(dest)` throws
`std::invalid_argument` (the MutationOnFrozen error), at the first pair, when the source
is another object and holds at least one pair; it returns without an error when the
source is empty; and in every case it leaves the destination, and the whole heap, as it
was. -/
theorem CopyTo_into_frozen (h : Heap K V) (this dest : Ptr) (src dst : Dictionary K V)
    (hthis : h[this]? = some src) (hdest : h[dest]? = some dst)
    (hf : dst.Frozen = true) :
    (src.GetLength ≠ 0 → dest ≠ this →
        (h.CopyTo this dest).1 =
          Result.threw "Value in dictionary must not be modified.") ∧
      (src.GetLength = 0 → (h.CopyTo this dest).1 = Result.returned ()) ∧
      (h.CopyTo this dest).2 = h ∧ (h.CopyTo this dest).2[dest]? = some dst := by
  have hf0 : dst.m_Frozen = true := hf
  have hheap : (h.CopyTo this dest).2 = h := by
    simp only [Heap.CopyTo, hthis]
    exact Heap.CopyToLoop_frozen_heap hdest hf0 this src.m_Data
  refine ⟨?_, ?_, hheap, by rw [hheap]; exact hdest⟩
  · intro hlen hne
    simp only [Heap.CopyTo, hthis]
    cases hl : src.m_Data with
    | nil => simp [Dictionary.GetLength, hl] at hlen
    | cons kv rest => exact Heap.CopyToLoop_frozen_throws hdest hf0 hne kv rest
  · intro hlen
    have hl : src.m_Data = [] := List.length_eq_zero.1 hlen
    simp [Heap.CopyTo, hthis, hl, Heap.CopyToLoop]

/-- C11, amended, on `sampleHeap` with its object at address 0 frozen: copying the
object at address 1 (keys 1 and 2) into it throws and changes nothing. -/
theorem CopyTo_into_frozen_witness :
    (Heap.call sampleHeap 0 Dictionary.Freeze).2[1]?
        = some (Dictionary.mk [(1, some 1), (2, some 2)] false 1) ∧
      (Heap.call sampleHeap 0 Dictionary.Freeze).2[0]?
        = some (Dictionary.mk [(2, some 20), (5, some 50)] true 0) ∧
      (Dictionary.mk [((2 : Nat), some 20), (5, some 50)] true 0).Frozen = true ∧
      (((Dictionary.mk [((1 : Nat), some 1), (2, some 2)] false 1).GetLength ≠ 0 →
          (0 : Ptr) ≠ 1 →
          ((Heap.call sampleHeap 0 Dictionary.Freeze).2.CopyTo 1 0).1 =
            Result.threw "Value in dictionary must not be modified.") ∧
        ((Dictionary.mk [((1 : Nat), some 1), (2, some 2)] false 1).GetLength = 0 →
          ((Heap.call sampleHeap 0 Dictionary.Freeze).2.CopyTo 1 0).1 =
            Result.returned ()) ∧
        ((Heap.call sampleHeap 0 Dictionary.Freeze).2.CopyTo 1 0).2 =
          (Heap.call sampleHeap 0 Dictionary.Freeze).2 ∧
        ((Heap.call sampleHeap 0 Dictionary.Freeze).2.CopyTo 1 0).2[0]? =
          some (Dictionary.mk [(2, some 20), (5, some 50)] true 0)) :=
  ⟨rfl, rfl, rfl,
    CopyTo_into_frozen (Heap.call sampleHeap 0 Dictionary.Freeze).2 1 0 _ _ rfl rfl rfl⟩

/-- C12: reflective field access keeps own data and prototype fallback apart.
`GetFieldByName(name)` returns the stored value when the key exists and otherwise exactly
what the prototype field resolution returns for the object and that name;
`HasOwnField(name)` is `Contains(name)` and `GetOwnField(name, &out)` is
`Get(name, &out)`, neither of which has the prototype resolution among its inputs;
`SetFieldByName(name, v)` ends as `Set(name, v)` does and leaves the same object. -/
theorem field_bridge_own_data_and_fallback {DI : Type}
    (GetPrototypeField : Dictionary K V → K → Bool → DI → Result V)
    (d : Dictionary K V) (name : K) (sandboxed : Bool) (debugInfo : DI) (v out : V) :
    (d.Contains name = true →
        d.GetFieldByName GetPrototypeField name sandboxed debugInfo =
          Result.returned (d.Get name)) ∧
      (d.Contains name = false →
        d.GetFieldByName GetPrototypeField name sandboxed debugInfo =
          GetPrototypeField d name false debugInfo) ∧
      d.HasOwnField name = d.Contains name ∧
      d.GetOwnField name out = d.GetInto name out ∧
      d.SetFieldByName name v debugInfo = d.Set name v := by
  refine ⟨?_, ?_, rfl, rfl, rfl⟩
  · intro hc
    rw [Dictionary.Contains_eq] at hc
    cases hl : Map.lookup d.m_Data name with
    | none => simp [hl] at hc
    | some w => simp [Dictionary.GetFieldByName, Dictionary.GetInto_eq, Dictionary.Get_eq, hl]
  · intro hc
    rw [Dictionary.Contains_eq] at hc
    simp [Dictionary.GetFieldByName, Dictionary.GetInto_eq, hc]

/-- C13: `LockIfRequired()` returns a guard that has acquired the object-level lock when
the dictionary is mutable (the calling thread then holds the lock once more), and a
guard that has not locked when it is frozen (the lock count stays); in both cases the
stored pairs and the frozen flag are as before. -/
theorem LockIfRequired_locks_iff_mutable (d : Dictionary K V) :
    (d.Frozen = false →
        d.LockIfRequired.1.m_Locked = true ∧ d.LockIfRequired.2.OwnsLock = true ∧
          d.LockIfRequired.2.lockCount = d.lockCount + 1) ∧
      (d.Frozen = true →
        d.LockIfRequired.1.m_Locked = false ∧ d.LockIfRequired.2 = d) ∧
      d.LockIfRequired.2.m_Data = d.m_Data ∧ d.LockIfRequired.2.Frozen = d.Frozen := by
  cases d with
  | mk m f c =>
    cases f <;>
      simp [Dictionary.LockIfRequired, Dictionary.Lock, Dictionary.OwnsLock,
        Dictionary.Frozen]

/-- C14: the code against its documentation comment.  The comment promises a locked
guard for a frozen dictionary and an unlocked one otherwise; the code returns an
unlocked guard for the frozen `sampleFrozen` and a locked one for the mutable
`sampleDict`. -/
theorem LockIfRequired_against_its_comment :
    sampleFrozen.Frozen = true ∧ sampleFrozen.LockIfRequired.1.m_Locked = false ∧
      sampleDict.Frozen = false ∧ sampleDict.LockIfRequired.1.m_Locked = true := by
  decide

/-- C17: `Freeze()` does not gate reads and changes the flag only.  It returns, also on
a frozen dictionary, which it leaves as it is; afterwards `Frozen()` is true, nothing
but the flag has changed, and `Get(k)`, `Get(k, &out)`, `Contains(k)`, `GetLength()` and
`GetKeys()` return what they returned before. -/
theorem Freeze_changes_only_the_flag (d : Dictionary K V) :
    d.Freeze.1 = Result.returned () ∧ d.Freeze.2.Frozen = true ∧
      d.Freeze.2 = { d with m_Frozen := true } ∧
      (d.Frozen = true → d.Freeze.2 = d) ∧
      (∀ k, d.Freeze.2.Get k = d.Get k) ∧
      (∀ k out, d.Freeze.2.GetInto k out = d.GetInto k out) ∧
      (∀ k, d.Freeze.2.Contains k = d.Contains k) ∧
      d.Freeze.2.GetLength = d.GetLength ∧ d.Freeze.2.GetKeys = d.GetKeys := by
  rw [Dictionary.Freeze_eq]
  refine ⟨rfl, rfl, rfl, ?_, fun _ => rfl, fun _ _ => rfl, fun _ => rfl, rfl, rfl⟩
  intro hf
  cases d
  simp only [Dictionary.Frozen] at hf
  simp [hf]

/-- C20: storing the empty value is not a deletion.  After `Set(k, Empty)` on an
unfrozen dictionary the key is present: `Contains(k)` is true, `Get(k, &out)` returns
true (and writes `Empty`), `GetKeys()` lists `k` once, `GetLength()` is the number of
listed keys and is one more than before when `k` was absent, and `GetFieldByName(k)`
returns `Empty` whatever the prototype resolution would return; yet `Get(k)` returns
`Empty`, the value it returns for every absent key. -/
theorem Set_Empty_is_not_a_deletion {DI : Type}
    (GetPrototypeField : Dictionary K V → K → Bool → DI → Result V)
    (d : Dictionary K V) (hwf : Map.Ordered d.m_Data) (hnf : d.Frozen = false) (k : K)
    (out : V) (sandboxed : Bool) (debugInfo : DI) :
    (d.Set k Value.Empty).2.Contains k = true ∧
      (d.Set k Value.Empty).2.GetInto k out = (true, Value.Empty) ∧
      k ∈ (d.Set k Value.Empty).2.GetKeys ∧ (d.Set k Value.Empty).2.GetKeys.Nodup ∧
      (d.Set k Value.Empty).2.GetLength = (d.Set k Value.Empty).2.GetKeys.length ∧
      (d.Contains k = false → (d.Set k Value.Empty).2.GetLength = d.GetLength + 1) ∧
      (d.Set k Value.Empty).2.GetFieldByName GetPrototypeField k sandboxed debugInfo =
        Result.returned Value.Empty ∧
      (d.Set k Value.Empty).2.Get k = Value.Empty ∧
      ∀ k1, (d.Set k Value.Empty).2.Contains k1 = false →
        (d.Set k Value.Empty).2.Get k1 = (d.Set k Value.Empty).2.Get k := by
  have hnf0 : d.m_Frozen = false := hnf
  have hord : Map.Ordered (Map.assign d.m_Data k (Value.Empty : V)) :=
    Map.ordered_assign hwf k Value.Empty
  rw [Dictionary.Set_unfrozen d hnf0]
  refine ⟨?_, ?_, ?_, ?_, ?_, ?_, ?_, ?_, ?_⟩
  · simp [Dictionary.Contains_eq, Map.lookup_assign]
  · simp [Dictionary.GetInto_eq, Map.lookup_assign]
  · rw [Dictionary.GetKeys_eq, ← Map.lookup_isSome_iff]
    simp [Map.lookup_assign]
  · rw [Dictionary.GetKeys_eq]
    exact Map.Ordered.nodup hord
  · simp [Dictionary.GetKeys_eq, Dictionary.GetLength]
  · intro hc
    rw [Dictionary.Contains_eq] at hc
    simp [Dictionary.GetLength, Map.length_assign hwf, hc]
  · simp [Dictionary.GetFieldByName, Dictionary.GetInto_eq, Map.lookup_assign]
  · simp [Dictionary.Get_eq, Map.lookup_assign]
  · intro k1 hc
    rw [Dictionary.Contains_eq] at hc
    have hnone : Map.lookup (Map.assign d.m_Data k (Value.Empty : V)) k1 = none := by
      cases hl : Map.lookup (Map.assign d.m_Data k (Value.Empty : V)) k1 with
      | none => rfl
      | some w => simp [hl] at hc
    simp only [Dictionary.Get_eq, hnone, Map.lookup_assign]
    simp

/-- C20 on `sampleDict` (keys 2 and 5): `Set(3, Empty)`, with a prototype resolution
that would return 99. -/
theorem Set_Empty_is_not_a_deletion_witness :
    Map.Ordered sampleDict.m_Data ∧ sampleDict.Frozen = false ∧
      ((sampleDict.Set 3 Value.Empty).2.Contains 3 = true ∧
        (sampleDict.Set 3 Value.Empty).2.GetInto 3 (some 7) = (true, Value.Empty) ∧
        3 ∈ (sampleDict.Set 3 Value.Empty).2.GetKeys ∧
        (sampleDict.Set 3 Value.Empty).2.GetKeys.Nodup ∧
        (sampleDict.Set 3 Value.Empty).2.GetLength =
          (sampleDict.Set 3 Value.Empty).2.GetKeys.length ∧
        (sampleDict.Contains 3 = false →
          (sampleDict.Set 3 Value.Empty).2.GetLength = sampleDict.GetLength + 1) ∧
        (sampleDict.Set 3 Value.Empty).2.GetFieldByName
            (fun _ _ _ (_ : Unit) => Result.returned (some 99)) 3 false () =
          Result.returned Value.Empty ∧
        (sampleDict.Set 3 Value.Empty).2.Get 3 = Value.Empty ∧
        ∀ k1, (sampleDict.Set 3 Value.Empty).2.Contains k1 = false →
          (sampleDict.Set 3 Value.Empty).2.Get k1 =
            (sampleDict.Set 3 Value.Empty).2.Get 3) :=
  ⟨by decide, rfl,
    Set_Empty_is_not_a_deletion _ sampleDict (by decide) rfl 3 (some 7) false ()⟩

/-- C15, as stated, fails for `Remove(iterator)`: on the frozen `sampleFrozen`, whose
lock the calling thread does not hold, the debug build's assertion of
`Remove(iterator)` fails although the container is frozen, while those of `Begin()` and
`End()` pass. -/
theorem RemoveAt_frozen_without_lock_aborts :
    sampleFrozen.Frozen = true ∧ sampleFrozen.OwnsLock = false ∧
      (sampleFrozen.RemoveAt true 0).1 = Result.aborted ∧
      sampleFrozen.Begin true = Result.returned 0 ∧
      sampleFrozen.End true = Result.returned 1 ∧
      ¬ ((sampleFrozen.RemoveAt true 0).1 ≠ Result.aborted ↔
        (sampleFrozen.OwnsLock = true ∨ sampleFrozen.Frozen = true)) := by
  decide

/-- C15, amended: in a debug build `Begin()` and `End()` pass their assertion exactly
when the calling thread holds the object-level lock or the container is frozen, and
`Remove(iterator)` passes its assertion exactly when the calling thread holds the
object-level lock, frozen or not.  A failed assertion aborts: the call neither returns
nor throws, and the object is as it was.  A release build does not check the
assertions. -/
theorem lock_discipline_of_iteration (d : Dictionary K V) (it : Nat) :
    (d.Begin true ≠ Result.aborted ↔ (d.OwnsLock = true ∨ d.Frozen = true)) ∧
      (d.End true ≠ Result.aborted ↔ (d.OwnsLock = true ∨ d.Frozen = true)) ∧
      ((d.RemoveAt true it).1 ≠ Result.aborted ↔ d.OwnsLock = true) ∧
      (d.OwnsLock = false → d.Frozen = false →
        d.Begin true = Result.aborted ∧ d.End true = Result.aborted) ∧
      (d.OwnsLock = false → d.RemoveAt true it = (Result.aborted, d)) ∧
      d.Begin false ≠ Result.aborted ∧ d.End false ≠ Result.aborted ∧
      (d.RemoveAt false it).1 ≠ Result.aborted := by
  refine ⟨?_, ?_, ?_, ?_, ?_, ?_, ?_, ?_⟩
  · cases ho : d.OwnsLock <;> cases hf : d.Frozen <;>
      simp [Dictionary.Begin, Dictionary.assertFails, ho, hf]
  · cases ho : d.OwnsLock <;> cases hf : d.Frozen <;>
      simp [Dictionary.End, Dictionary.assertFails, ho, hf]
  · cases ho : d.OwnsLock
    · simp [Dictionary.RemoveAt, Dictionary.assertFails, ho]
    · simp only [Dictionary.RemoveAt, Dictionary.assertFails, ho]
      cases d.m_Frozen
      · by_cases hit : it < Map.end d.m_Data <;> simp [hit]
      · simp
  · intro ho hf
    simp [Dictionary.Begin, Dictionary.End, Dictionary.assertFails, ho, hf]
  · intro ho
    simp [Dictionary.RemoveAt, Dictionary.assertFails, ho]
  · simp [Dictionary.Begin, Dictionary.assertFails]
  · simp [Dictionary.End, Dictionary.assertFails]
  · simp only [Dictionary.RemoveAt, Dictionary.assertFails]
    cases d.m_Frozen
    · by_cases hit : it < Map.end d.m_Data <;> simp [hit]
    · simp

/-- C16: iteration order does not depend on the construction history.  For every list
of pairs with pairwise different keys and every permutation of it, setting the pairs on
an empty dictionary in the one order and in the other yields the same dictionary, with
the same `GetKeys()` and, once the caller holds the lock `LockIfRequired()` gives, the
same sequence of pairs from `Begin()` to `End()`, which is the stored pairs in key
order. -/
theorem Set_order_does_not_matter (I2_DEBUG : Bool) (l1 l2 : List (K × V))
    (hkeys : (l1.map Prod.fst).Nodup) (hperm : l1.Perm l2) :
    (replaySets l1 : Dictionary K V) = replaySets l2 ∧
      (replaySets l1 : Dictionary K V).GetKeys = (replaySets l2 : Dictionary K V).GetKeys ∧
      (replaySets l1 : Dictionary K V).LockIfRequired.2.iterate I2_DEBUG =
        (replaySets l2 : Dictionary K V).LockIfRequired.2.iterate I2_DEBUG ∧
      (replaySets l1 : Dictionary K V).LockIfRequired.2.iterate I2_DEBUG =
        Result.returned (replaySets l1 : Dictionary K V).m_Data ∧
      Map.Ordered (replaySets l1 : Dictionary K V).m_Data := by
  have hdata : l1.foldl (fun m kv => Map.assign m kv.1 kv.2) [] =
      l2.foldl (fun m kv => Map.assign m kv.1 kv.2) [] := by
    apply Map.ordered_ext (Map.ordered_foldl_assign l1 [] Map.ordered_nil)
      (Map.ordered_foldl_assign l2 [] Map.ordered_nil)
    intro k
    have hkeys2 : (l2.map Prod.fst).Nodup := (hperm.map Prod.fst).nodup_iff.1 hkeys
    have hr1 : (l1.reverse.map Prod.fst).Nodup := by
      rw [List.map_reverse]; exact List.nodup_reverse.2 hkeys
    have hr2 : (l2.reverse.map Prod.fst).Nodup := by
      rw [List.map_reverse]; exact List.nodup_reverse.2 hkeys2
    have e1 : Map.lookup l1.reverse k = Map.lookup l1 k :=
      Map.lookup_perm (List.reverse_perm l1) hr1 k
    have e2 : Map.lookup l2.reverse k = Map.lookup l2 k :=
      Map.lookup_perm (List.reverse_perm l2) hr2 k
    rw [Map.lookup_foldl_assign_last, Map.lookup_foldl_assign_last, e1, e2,
      Map.lookup_perm hperm hkeys k]
  have heq : (replaySets l1 : Dictionary K V) = replaySets l2 := by
    rw [Dictionary.replaySets_eq, Dictionary.replaySets_eq, hdata]
  refine ⟨heq, by rw [heq], by rw [heq], ?_, ?_⟩
  · have hlock : (replaySets l1 : Dictionary K V).LockIfRequired.2.OwnsLock = true := by
      rw [Dictionary.replaySets_eq]
      simp [Dictionary.LockIfRequired, Dictionary.Frozen, Dictionary.Lock,
        Dictionary.OwnsLock]
    rw [Dictionary.iterate_eq I2_DEBUG _ (Or.inl hlock)]
    rw [Dictionary.replaySets_eq]
    simp [Dictionary.LockIfRequired, Dictionary.Frozen, Dictionary.Lock]
  · rw [Dictionary.replaySets_eq]
    exact Map.ordered_foldl_assign l1 [] Map.ordered_nil

/-- C16 on the pairs with the keys 5 and 2, set in this order and in the other. -/
theorem Set_order_does_not_matter_witness :
    ([((5 : Nat), some 50), (2, some 20)].map Prod.fst).Nodup ∧
      [((5 : Nat), some 50), (2, some 20)].Perm [(2, some 20), (5, some 50)] ∧
      ((replaySets [((5 : Nat), some 50), (2, some 20)] : Dictionary Nat (Option Nat)) =
          replaySets [(2, some 20), (5, some 50)] ∧
        (replaySets [((5 : Nat), some 50), (2, some 20)]
            : Dictionary Nat (Option Nat)).GetKeys =
          (replaySets [(2, some 20), (5, some 50)] : Dictionary Nat (Option Nat)).GetKeys ∧
        (replaySets [((5 : Nat), some 50), (2, some 20)]
            : Dictionary Nat (Option Nat)).LockIfRequired.2.iterate true =
          (replaySets [(2, some 20), (5, some 50)]
            : Dictionary Nat (Option Nat)).LockIfRequired.2.iterate true ∧
        (replaySets [((5 : Nat), some 50), (2, some 20)]
            : Dictionary Nat (Option Nat)).LockIfRequired.2.iterate true =
          Result.returned (replaySets [((5 : Nat), some 50), (2, some 20)]
            : Dictionary Nat (Option Nat)).m_Data ∧
        Map.Ordered (replaySets [((5 : Nat), some 50), (2, some 20)]
            : Dictionary Nat (Option Nat)).m_Data) :=
  ⟨by decide, List.Perm.swap _ _ _,
    Set_order_does_not_matter true _ _ (by decide) (List.Perm.swap _ _ _)⟩

/-- C19, as stated, fails in its last part: in `repeatedKey` the key 1 occurs with the
different values 1 and 2, yet the constructed dictionary and the one replayed through
`Set` are the same, because the first and the last pair of the key carry the same
value. -/
theorem repeated_key_without_difference :
    (∃ k v1 v2, (k, v1) ∈ repeatedKey ∧ (k, v2) ∈ repeatedKey ∧ v1 ≠ v2) ∧
      (Dictionary.ofData repeatedKey : Dictionary Nat (Option Nat)) =
        replaySets repeatedKey ∧
      (Dictionary.ofMovedData repeatedKey : Dictionary Nat (Option Nat)) =
        replaySets repeatedKey ∧
      (Dictionary.ofInitializerList repeatedKey : Dictionary Nat (Option Nat)) =
        replaySets repeatedKey :=
  ⟨⟨1, some 1, some 2, by decide, by decide, by decide⟩, by decide, by decide, by decide⟩

/-- C19, amended: the dictionary any of the three constructors builds from a sequence of
pairs is unfrozen, contains exactly the keys of the sequence, as many as the sequence
has distinct keys, and maps each key to the value of the first pair carrying it, whereas
replaying the pairs through `Set` on an empty dictionary maps each key to the value of
the last pair carrying it; the two dictionaries differ exactly when, for some key, the
first and the last pair carrying it have different values. -/
theorem constructors_keep_the_first_pair (l : List (K × V)) :
    ∀ d ∈ [(Dictionary.ofData l : Dictionary K V), Dictionary.ofMovedData l,
        Dictionary.ofInitializerList l],
      d.Frozen = false ∧
        (∀ k, d.Contains k = true ↔ k ∈ l.map Prod.fst) ∧
        d.GetLength = (l.map Prod.fst).toFinset.card ∧
        (∀ k, d.Get k = (firstValueOf l k).getD Value.Empty) ∧
        (∀ k, (replaySets l : Dictionary K V).Get k =
          (lastValueOf l k).getD Value.Empty) ∧
        (d ≠ replaySets l ↔ ∃ k, firstValueOf l k ≠ lastValueOf l k) := by
  have hsame : ∀ d ∈ [(Dictionary.ofData l : Dictionary K V), Dictionary.ofMovedData l,
      Dictionary.ofInitializerList l], d = Dictionary.ofData l := by
    intro d hd
    simp only [List.mem_cons, List.mem_singleton, List.not_mem_nil, or_false] at hd
    rcases hd with hd | hd | hd <;> rw [hd] <;> rfl
  intro d hd
  rw [hsame d hd]
  have hord : Map.Ordered (Dictionary.ofData l : Dictionary K V).m_Data :=
    Map.ordered_foldl_insert l Map.ordered_nil
  have hcontains : ∀ k, (Dictionary.ofData l : Dictionary K V).Contains k = true ↔
      k ∈ l.map Prod.fst := by
    intro k
    rw [Dictionary.Contains_eq, Dictionary.lookup_ofData, Map.firstValueOf_eq_lookup,
      Map.lookup_isSome_iff]
  refine ⟨rfl, hcontains, ?_, ?_, ?_, ?_⟩
  · rw [Dictionary.GetLength_eq_card _ hord]
    congr 1
    ext k
    rw [List.mem_toFinset, List.mem_toFinset, ← Map.lookup_isSome_iff,
      ← Dictionary.Contains_eq]
    exact hcontains k
  · intro k
    rw [Dictionary.Get_eq, Dictionary.lookup_ofData]
  · intro k
    rw [Dictionary.Get_eq, Dictionary.lookup_replaySets]
  · rw [Ne, Dictionary.ofData_eq_replaySets_iff]
    simp only [not_forall]

/-- C19, amended, on the literal list with the pairs (2, 20), (1, 1), (2, 21): the key 2
maps to 20 in the constructed dictionary and to 21 in the replayed one. -/
theorem constructors_keep_the_first_pair_witness :
    (Dictionary.ofInitializerList [((2 : Nat), some 20), (1, some 1), (2, some 21)]
        : Dictionary Nat (Option Nat)) ∈
      [(Dictionary.ofData [((2 : Nat), some 20), (1, some 1), (2, some 21)]
          : Dictionary Nat (Option Nat)),
        Dictionary.ofMovedData [((2 : Nat), some 20), (1, some 1), (2, some 21)],
        Dictionary.ofInitializerList [((2 : Nat), some 20), (1, some 1), (2, some 21)]] ∧
      ((Dictionary.ofInitializerList [((2 : Nat), some 20), (1, some 1), (2, some 21)]
          : Dictionary Nat (Option Nat)).Frozen = false ∧
        (∀ k, (Dictionary.ofInitializerList
            [((2 : Nat), some 20), (1, some 1), (2, some 21)]
            : Dictionary Nat (Option Nat)).Contains k = true ↔
          k ∈ [((2 : Nat), some 20), (1, some 1), (2, some 21)].map Prod.fst) ∧
        (Dictionary.ofInitializerList [((2 : Nat), some 20), (1, some 1), (2, some 21)]
          : Dictionary Nat (Option Nat)).GetLength =
          ([((2 : Nat), some 20), (1, some 1), (2, some 21)].map Prod.fst).toFinset.card ∧
        (∀ k, (Dictionary.ofInitializerList
            [((2 : Nat), some 20), (1, some 1), (2, some 21)]
            : Dictionary Nat (Option Nat)).Get k =
          (firstValueOf [((2 : Nat), some 20), (1, some 1), (2, some 21)] k).getD
            Value.Empty) ∧
        (∀ k, (replaySets [((2 : Nat), some 20), (1, some 1), (2, some 21)]
            : Dictionary Nat (Option Nat)).Get k =
          (lastValueOf [((2 : Nat), some 20), (1, some 1), (2, some 21)] k).getD
            Value.Empty) ∧
        ((Dictionary.ofInitializerList [((2 : Nat), some 20), (1, some 1), (2, some 21)]
            : Dictionary Nat (Option Nat)) ≠
            replaySets [((2 : Nat), some 20), (1, some 1), (2, some 21)] ↔
          ∃ k, firstValueOf [((2 : Nat), some 20), (1, some 1), (2, some 21)] k ≠
            lastValueOf [((2 : Nat), some 20), (1, some 1), (2, some 21)] k)) :=
  ⟨by decide, constructors_keep_the_first_pair _ _ (by decide)⟩

/-- C18, as stated, fails: in `Clone()` of `sampleDict` the fourth event is the call of
the `Clone` of the first stored value, and the thread holds a shared lock on
`m_DataMutex` at that moment. -/
theorem Clone_clones_a_value_under_the_lock :
    (sampleDict.CloneEvents[3]?).map CloneEvent.isValueClone = some true ∧
      CloneEvent.sharedHeld (sampleDict.CloneEvents.take 3) = 1 ∧
      ¬ (∀ (i : Nat) (e : CloneEvent Nat (Option Nat)),
        sampleDict.CloneEvents[i]? = some e → e.isValueClone = true →
          CloneEvent.sharedHeld (sampleDict.CloneEvents.take i) = 0) := by
  refine ⟨by decide, by decide, ?_⟩
  intro h
  have h3 := h 3 (CloneEvent.valueClone 2 (some 20)) rfl rfl
  revert h3
  decide

/-- C18, amended: in `Clone()` of any dictionary, empty or not, the shared data lock is
held while the pairs are collected, and that includes the calls of the values' `Clone`:
every such call happens while the thread holds the shared lock.  The lock is released
before the new dictionary is constructed, which is the last step (no shared lock is held
after the events before it), and there is one call of a value's `Clone` for every stored
pair. -/
theorem Clone_holds_the_lock_while_cloning (d : Dictionary K V) :
    (∀ (i : Nat) (e : CloneEvent K V), d.CloneEvents[i]? = some e →
        e.isValueClone = true → 0 < CloneEvent.sharedHeld (d.CloneEvents.take i)) ∧
      CloneEvent.sharedHeld d.CloneEvents.dropLast = 0 ∧
      d.CloneEvents.getLast? = some CloneEvent.construct ∧
      d.CloneEvents.countP CloneEvent.isValueClone = d.GetLength := by
  refine ⟨?_, ?_, ?_, ?_⟩
  · intro i e hi hc
    rw [Dictionary.CloneEvents_eq] at hi ⊢
    match i, hi with
    | 0, hi =>
      simp at hi
      subst hi
      simp [CloneEvent.isValueClone] at hc
    | 1, hi =>
      simp at hi
      subst hi
      simp [CloneEvent.isValueClone] at hc
    | 2, hi =>
      simp at hi
      subst hi
      simp [CloneEvent.isValueClone] at hc
    | j + 3, hi =>
      simp only [List.getElem?_cons_succ] at hi
      by_cases hj : j < (d.m_Data.map (fun kv => CloneEvent.valueClone kv.1 kv.2)).length
      · have hlock := (Dictionary.valueClones_spec d.m_Data j).1
        have hunlock := (Dictionary.valueClones_spec d.m_Data j).2
        simp only [List.take_succ_cons, List.take_append_of_le_length (le_of_lt hj),
          CloneEvent.sharedHeld, List.countP_cons, hlock, hunlock]
        simp [CloneEvent.isLock, CloneEvent.isUnlock]
      · rw [List.getElem?_append_right (not_lt.1 hj)] at hi
        generalize j - (d.m_Data.map (fun kv => CloneEvent.valueClone kv.1 kv.2)).length
          = r at hi
        match r, hi with
        | 0, hi =>
          simp at hi
          subst hi
          simp [CloneEvent.isValueClone] at hc
        | 1, hi =>
          simp at hi
          subst hi
          simp [CloneEvent.isValueClone] at hc
        | r + 2, hi => simp at hi
  · have hlock := (Dictionary.valueClones_spec d.m_Data d.m_Data.length).1
    have hunlock := (Dictionary.valueClones_spec d.m_Data d.m_Data.length).2
    have hall : (d.m_Data.map (fun kv => CloneEvent.valueClone kv.1 kv.2)).take
        d.m_Data.length = d.m_Data.map (fun kv => CloneEvent.valueClone kv.1 kv.2) := by
      apply List.take_of_length_le
      simp
    rw [hall] at hlock hunlock
    have hdrop : d.CloneEvents.dropLast = CloneEvent.lockShared ::
        CloneEvent.lockShared :: CloneEvent.unlockShared ::
          (d.m_Data.map (fun kv => CloneEvent.valueClone kv.1 kv.2) ++
            [CloneEvent.unlockShared]) := by
      unfold Dictionary.CloneEvents
      rw [List.dropLast_concat]
      simp
    rw [hdrop]
    simp [CloneEvent.sharedHeld, List.countP_cons, List.countP_append, hlock, hunlock,
      CloneEvent.isLock, CloneEvent.isUnlock]
  · unfold Dictionary.CloneEvents
    exact List.getLast?_concat _
  · simp [Dictionary.CloneEvents, List.countP_cons, List.countP_append, List.countP_map,
      CloneEvent.isValueClone, Dictionary.GetLength, Function.comp_def]

/-- C18, amended, on `sampleDict`: the fourth event of its `Clone()` is the call of the
`Clone` of the value stored under 2, made with the shared lock held; the lock is
released before the construction. -/
theorem Clone_holds_the_lock_while_cloning_witness :
    sampleDict.CloneEvents[3]? = some (CloneEvent.valueClone 2 (some 20)) ∧
      (CloneEvent.valueClone 2 (some 20) : CloneEvent Nat (Option Nat)).isValueClone
        = true ∧
      0 < CloneEvent.sharedHeld (sampleDict.CloneEvents.take 3) ∧
      CloneEvent.sharedHeld sampleDict.CloneEvents.dropLast = 0 ∧
      sampleDict.CloneEvents.getLast? = some CloneEvent.construct ∧
      sampleDict.CloneEvents.countP CloneEvent.isValueClone = sampleDict.GetLength :=
  ⟨rfl, rfl, (Clone_holds_the_lock_while_cloning sampleDict).1 3 _ rfl rfl,
    (Clone_holds_the_lock_while_cloning sampleDict).2⟩

end Claims

end icinga
